import Mathlib

set_option maxHeartbeats 1600000

/- Shallow embedding of the core services of a RAG document-processing
   service (ingestion pipeline, embedding cache and client, vector store
   adapter, retrieval engine with MMR, chunker, retry policy), together
   with theorems checking the specification's claims against this
   embedding.  Python floats are idealized as rationals (for stored data)
   and reals (for derived similarity values); wall-clock time, randomness
   and network I/O are modelled by explicit parameters. -/

/- ===================== app/core/errors.py + app/core/retry.py ========= -/

/- Python exception values as seen by the transient-failure classifier in
   app/core/retry.py.  AppError covers the whole domain-error hierarchy of
   app/core/errors.py (NotFoundError, ForbiddenError, BadRequestError,
   ConflictError, UnauthorizedError, UpstreamServiceError,
   DependencyMissingError), each carrying its status_code, code and
   message.  otherExc is any other exception, with its optional
   status_code attribute. -/
inductive PyExc : Type
  | appError (status_code : Int) (code : String) (message : String)
  | timeoutError
  | osError
  | connectionError
  | httpxHTTPError
  | openaiRateLimit
  | openaiAPIConnection
  | openaiAPITimeout
  | openaiInternalServer
  | otherExc (status_code : Option Int)
deriving DecidableEq, Repr

def transientStatusCodes : List Int := [408, 429, 500, 502, 503, 504]

/- app/core/retry.py _is_transient_exception: AppError is checked first
   and is never transient; timeout / OS / connection / httpx network
   errors are transient; otherwise an integer status_code attribute in
   {408, 429, 500, 502, 503, 504} is transient; the optional OpenAI SDK
   exception types are transient; everything else is not. -/
def _is_transient_exception : PyExc → Bool
  | .appError _ _ _ => false
  | .timeoutError => true
  | .osError => true
  | .connectionError => true
  | .httpxHTTPError => true
  | .openaiRateLimit => true
  | .openaiAPIConnection => true
  | .openaiAPITimeout => true
  | .openaiInternalServer => true
  | .otherExc (some sc) => transientStatusCodes.contains sc
  | .otherExc none => false

/- app/core/config.py: RETRY_MAX_ATTEMPTS defaults to 3. -/
def RETRY_MAX_ATTEMPTS : Nat := 3

/- The tenacity wrapper built in app/core/retry.py retry_transient:
   reraise=True, retry_if_exception(_is_transient_exception),
   stop_after_attempt(maxAttempts).  The wrapped callable is modelled as a
   function from the (0-based) attempt number to its outcome; the model
   returns the final outcome together with the number of attempts that
   were executed.  A non-transient exception propagates immediately; a
   transient one is retried until maxAttempts attempts have run, after
   which the exception of the last attempt is re-raised (reraise=True). -/
def retryLoop {α : Type} (f : Nat → Except PyExc α) (maxAttempts : Nat) (k : Nat) :
    Except PyExc α × Nat :=
  match f k with
  | .ok a => (.ok a, k + 1)
  | .error e =>
    if h : _is_transient_exception e = true ∧ k + 1 < maxAttempts then
      retryLoop f maxAttempts (k + 1)
    else
      (.error e, k + 1)
termination_by maxAttempts - k
decreasing_by omega

def retry_transient {α : Type} (maxAttempts : Nat) (f : Nat → Except PyExc α) :
    Except PyExc α × Nat :=
  retryLoop f maxAttempts 0

theorem retryLoop_attempts_le {α : Type} (f : Nat → Except PyExc α) (maxAttempts k : Nat) :
    k < maxAttempts → (retryLoop f maxAttempts k).2 ≤ maxAttempts := by
  induction k using retryLoop.induct f maxAttempts with
  | case1 x a hf =>
    intro hk
    rw [retryLoop, hf]
    simpa using hk
  | case2 x e hf h ih =>
    intro _
    rw [retryLoop, hf]
    simp only
    rw [dif_pos h]
    exact ih h.2
  | case3 x e hf h =>
    intro hk
    rw [retryLoop, hf]
    simp only
    rw [dif_neg h]
    simpa using hk

theorem retryLoop_attempts_gt {α : Type} (f : Nat → Except PyExc α) (maxAttempts k : Nat) :
    k < (retryLoop f maxAttempts k).2 := by
  induction k using retryLoop.induct f maxAttempts with
  | case1 x a hf =>
    rw [retryLoop, hf]
    simp
  | case2 x e hf h ih =>
    rw [retryLoop, hf]
    simp only
    rw [dif_pos h]
    omega
  | case3 x e hf h =>
    rw [retryLoop, hf]
    simp only
    rw [dif_neg h]
    simp

theorem retryLoop_reinvoke_only_transient {α : Type} (f : Nat → Except PyExc α)
    (maxAttempts k : Nat) :
    ∀ j, k ≤ j → j + 1 < (retryLoop f maxAttempts k).2 →
      ∃ e, f j = .error e ∧ _is_transient_exception e = true := by
  induction k using retryLoop.induct f maxAttempts with
  | case1 x a hf =>
    intro j hxj hj
    rw [retryLoop, hf] at hj
    simp at hj
    omega
  | case2 x e hf h ih =>
    intro j hxj hj
    rw [retryLoop, hf] at hj
    simp only at hj
    rw [dif_pos h] at hj
    rcases Nat.lt_or_ge j (x + 1) with hcase | hcase
    · have hjx : j = x := by omega
      exact ⟨e, by rw [hjx]; exact hf, h.1⟩
    · exact ih j hcase hj
  | case3 x e hf h =>
    intro j hxj hj
    rw [retryLoop, hf] at hj
    simp only at hj
    rw [dif_neg h] at hj
    simp at hj
    omega

theorem retryLoop_error_is_last {α : Type} (f : Nat → Except PyExc α)
    (maxAttempts k : Nat) (e : PyExc) :
    (retryLoop f maxAttempts k).1 = .error e →
      f ((retryLoop f maxAttempts k).2 - 1) = .error e := by
  induction k using retryLoop.induct f maxAttempts with
  | case1 x a hf =>
    intro hres
    rw [retryLoop, hf] at hres
    simp at hres
  | case2 x e' hf h ih =>
    intro hres
    rw [retryLoop, hf] at hres ⊢
    simp only at hres ⊢
    rw [dif_pos h] at hres ⊢
    exact ih hres
  | case3 x e' hf h =>
    intro hres
    rw [retryLoop, hf] at hres ⊢
    simp only at hres ⊢
    rw [dif_neg h] at hres ⊢
    simp at hres ⊢
    simpa [hres] using hf

/-- C7: the transient-failure classifier returns true for timeout,
connection and network I/O errors and for exceptions whose status_code is
in {408, 429, 500, 502, 503, 504}, and false for every domain AppError;
the retry wrapper re-invokes the wrapped call only after transient
failures, runs at most maxAttempts total attempts, and the exception that
propagates is exactly the (unwrapped) exception raised by the final
attempt — in particular, on exhaustion the original exception propagates
unchanged. -/
theorem C7_transient_classifier_and_retry
    {α : Type} (maxAttempts : Nat) (f : Nat → Except PyExc α)
    (hmax : 1 ≤ maxAttempts) :
    (_is_transient_exception .timeoutError = true
      ∧ _is_transient_exception .connectionError = true
      ∧ _is_transient_exception .osError = true
      ∧ _is_transient_exception .httpxHTTPError = true)
    ∧ (∀ sc : Int, sc ∈ transientStatusCodes →
        _is_transient_exception (.otherExc (some sc)) = true)
    ∧ (∀ (s : Int) (c m : String), _is_transient_exception (.appError s c m) = false)
    ∧ (retry_transient maxAttempts f).2 ≤ maxAttempts
    ∧ 1 ≤ (retry_transient maxAttempts f).2
    ∧ (∀ j, j + 1 < (retry_transient maxAttempts f).2 →
        ∃ e, f j = .error e ∧ _is_transient_exception e = true)
    ∧ (∀ e, (retry_transient maxAttempts f).1 = .error e →
        f ((retry_transient maxAttempts f).2 - 1) = .error e) := by
  refine ⟨⟨rfl, rfl, rfl, rfl⟩, ?_, ?_, ?_, ?_, ?_, ?_⟩
  · intro sc hsc
    simp only [_is_transient_exception]
    exact List.elem_eq_true_of_mem hsc
  · intro s c m
    rfl
  · exact retryLoop_attempts_le f maxAttempts 0 (by omega)
  · exact retryLoop_attempts_gt f maxAttempts 0
  · intro j hj
    exact retryLoop_reinvoke_only_transient f maxAttempts 0 j (Nat.zero_le j) hj
  · intro e he
    exact retryLoop_error_is_last f maxAttempts 0 e he

/-- C7 witness: the theorem instantiated at a concrete always-failing call
with the default RETRY_MAX_ATTEMPTS = 3. -/
theorem C7_transient_classifier_and_retry_witness :
    1 ≤ RETRY_MAX_ATTEMPTS ∧
      (retry_transient RETRY_MAX_ATTEMPTS
          (fun _ => (.error .timeoutError : Except PyExc Unit))).2 ≤ RETRY_MAX_ATTEMPTS :=
  ⟨by decide,
    (C7_transient_classifier_and_retry RETRY_MAX_ATTEMPTS
        (fun _ => (.error .timeoutError : Except PyExc Unit))
        (by decide)).2.2.2.1⟩

/- ============== app/services/embedding_cache.py ======================= -/

/- Vectors: Python float lists idealized as rational lists. -/
abbrev Vec := List ℚ

/- The Redis client as seen by the cache module: mget may raise (error) or
   return one optional decoded value per key; creating a pipeline may
   raise; executing the buffered writes may raise.  Payload decoding
   (json.loads of well-formed cached entries) is modelled away. -/
structure RedisBackend where
  mget : List String → Except Unit (List (Option Vec))
  pipelineNew : Except Unit Unit
  executeWrites : List (String × Vec) → Except Unit Unit

def EMBED_CACHE_TTL_SECONDS : Nat := 60 * 60 * 24

/- _make_cache_key: "embed:{model}:{sha256(text)}".  The sha256 hex digest
   is modelled by the text itself (content addressing idealized as
   injective). -/
def _make_cache_key (model : String) (text : String) : String :=
  "embed:" ++ model ++ ":" ++ text

/- get_cached_embeddings: no client, or an mget that raises, degrades to a
   list of None of the input length. -/
def get_cached_embeddings (backend : Option RedisBackend) (model : String)
    (texts : List String) : List (Option Vec) :=
  match backend with
  | none => texts.map fun _ => none
  | some b =>
    match b.mget (texts.map (_make_cache_key model)) with
    | .error _ => texts.map fun _ => none
    | .ok raw_values => raw_values

/- set_cached_embeddings: every backend interaction is wrapped in
   try/except and a failure makes the function return with nothing
   persisted; the result lists the (key, vector) pairs actually written.
   The Except value records that no exception escapes (.error is never
   produced). -/
def set_cached_embeddings (backend : Option RedisBackend) (model : String)
    (texts : List String) (vectors : List Vec) :
    Except Unit (List (String × Vec)) :=
  match backend with
  | none => .ok []
  | some b =>
    match b.pipelineNew with
    | .error _ => .ok []
    | .ok _ =>
      let writes := (texts.zip vectors).map fun tv => (_make_cache_key model tv.1, tv.2)
      match b.executeWrites writes with
      | .error _ => .ok []
      | .ok _ => .ok writes

/- ============== app/services/embedding_service.py ===================== -/

def OPENAI_EMBEDDING_MODEL : String := "text-embedding-3-small"

/- missing_indices = [i for i, v in enumerate(cached) if v is None] -/
def missingIndices (cached : List (Option Vec)) : List Nat :=
  (List.range cached.length).filter fun i => cached.getD i none = none

/- The write-back loop "for i in missing_indices: cached[i] = new_vectors[j]". -/
def fillMissing : List (Option Vec) → List Nat → List Vec → List (Option Vec)
  | cached, [], _ => cached
  | cached, _ :: _, [] => cached
  | cached, i :: is, v :: vs => fillMissing (cached.set i (some v)) is vs

/- embed_with_cache: batch-get from the cache, issue one provider request
   for the missing texts in input order, write back, and return the full
   list.  The provider (OpenAI embeddings.create behind the retry
   wrapper) is modelled as one vector per input text; the second
   component of the result records the provider requests that were
   issued. -/
def embed_with_cache (backend : Option RedisBackend) (embedOne : String → Vec)
    (texts : List String) : List Vec × List (List String) :=
  let cached := get_cached_embeddings backend OPENAI_EMBEDDING_MODEL texts
  let missing_indices := missingIndices cached
  let missing_texts := missing_indices.map fun i => texts.getD i ""
  if missing_texts.isEmpty then
    (cached.map fun v => v.getD [], [])
  else
    let new_vectors := missing_texts.map embedOne
    let _write := set_cached_embeddings backend OPENAI_EMBEDDING_MODEL missing_texts new_vectors
    let filled := fillMissing cached missing_indices new_vectors
    (filled.map fun v => v.getD [], [missing_texts])

theorem getD_map_getD_lt {α β : Type} (f : α → β) (l : List α) (i : Nat)
    (d : α) (d' : β) (h : i < l.length) :
    (l.map f).getD i d' = f (l.getD i d) := by
  rw [List.getD_eq_getElem (l.map f) d' (by simpa using h),
    List.getD_eq_getElem l d h, List.getElem_map]

theorem mem_missingIndices (cached : List (Option Vec)) (i : Nat) :
    i ∈ missingIndices cached ↔ i < cached.length ∧ cached.getD i none = none := by
  simp [missingIndices, List.mem_filter, List.mem_range]

theorem nodup_missingIndices (cached : List (Option Vec)) :
    (missingIndices cached).Nodup :=
  (List.nodup_range cached.length).filter _

theorem fillMissing_length (is : List Nat) :
    ∀ (cached : List (Option Vec)) (vs : List Vec),
      (fillMissing cached is vs).length = cached.length := by
  induction is with
  | nil =>
    intro cached vs
    rfl
  | cons i is ih =>
    intro cached vs
    cases vs with
    | nil => rfl
    | cons v vs =>
      show (fillMissing (cached.set i (some v)) is vs).length = cached.length
      rw [ih, List.length_set]

theorem fillMissing_getD (g : Nat → Vec) :
    ∀ (is : List Nat) (cached : List (Option Vec)),
      is.Nodup → (∀ j ∈ is, j < cached.length) →
      ∀ i, (fillMissing cached is (is.map g)).getD i none =
        if i ∈ is then some (g i) else cached.getD i none := by
  intro is
  induction is with
  | nil =>
    intro cached _ _ i
    simp [fillMissing]
  | cons j js ih =>
    intro cached hnd hbd i
    have hjlen : j < cached.length := hbd j (by simp)
    have hstep :
        fillMissing cached (j :: js) ((j :: js).map g) =
          fillMissing (cached.set j (some (g j))) js (js.map g) := rfl
    rw [hstep, ih (cached.set j (some (g j))) hnd.of_cons
      (fun m hm => by rw [List.length_set]; exact hbd m (by simp [hm]))]
    by_cases hij : i ∈ js
    · simp [hij]
    · by_cases hji : i = j
      · subst hji
        simp [hij, List.getD_eq_getElem?_getD, List.getElem?_set_eq hjlen]
      · simp only [hij, if_false, List.mem_cons, hji, false_or]
        rw [List.getD_eq_getElem?_getD, List.getD_eq_getElem?_getD,
          List.getElem?_set_ne (fun h => hji h.symm)]

theorem missingIndices_cons (c : Option Vec) (cs : List (Option Vec)) :
    missingIndices (c :: cs) =
      (if c = none then [0] else []) ++ (missingIndices cs).map Nat.succ := by
  unfold missingIndices
  rw [List.length_cons, List.range_succ_eq_map, List.filter_cons, List.filter_map]
  have hcomp :
      ((fun i => decide ((c :: cs).getD i none = none)) ∘ Nat.succ) =
        fun i => decide (cs.getD i none = none) := by
    funext i
    simp [Function.comp, List.getD_cons_succ]
  rw [hcomp]
  by_cases hc : c = none
  · simp [hc]
  · simp [hc]

theorem missingTexts_eq_zip_filter :
    ∀ (texts : List String) (cached : List (Option Vec)),
      cached.length = texts.length →
      (missingIndices cached).map (fun i => texts.getD i "") =
        ((texts.zip cached).filter fun p => p.2 = none).map Prod.fst := by
  intro texts
  induction texts with
  | nil =>
    intro cached hlen
    have : cached = [] := List.length_eq_zero.mp hlen
    subst this
    rfl
  | cons t ts ih =>
    intro cached hlen
    cases cached with
    | nil => simp at hlen
    | cons c cs =>
      rw [missingIndices_cons, List.map_append, List.map_map, List.zip_cons_cons,
        List.filter_cons]
      have hcomp :
          ((fun i => (t :: ts).getD i "") ∘ Nat.succ) = fun i => ts.getD i "" := by
        funext i
        simp [Function.comp, List.getD_cons_succ]
      rw [hcomp, ih cs (by simpa using hlen)]
      by_cases hc : c = none
      · simp [hc]
      · simp [hc]

theorem range_map_getD {α : Type} (l : List α) (d : α) :
    (List.range l.length).map (fun i => l.getD i d) = l := by
  apply List.ext_getElem (by simp)
  intro i h1 h2
  rw [List.getElem_map, List.getElem_range, List.getD_eq_getElem l d h2]

/-- C3: embed_with_cache returns one vector per input text, aligned
position-for-position: cache hits carry the cached vector, cache misses
are filled by the provider on the missing texts; at most one provider
request is issued, its inputs are exactly the missing texts in input
order, and if every input is cached no request is issued at all. -/
theorem C3_embed_with_cache_alignment
    (backend : Option RedisBackend) (embedOne : String → Vec) (texts : List String)
    (hlen : (get_cached_embeddings backend OPENAI_EMBEDDING_MODEL texts).length =
      texts.length) :
    (embed_with_cache backend embedOne texts).1.length = texts.length
    ∧ (∀ i v,
        (get_cached_embeddings backend OPENAI_EMBEDDING_MODEL texts).getD i none = some v →
        (embed_with_cache backend embedOne texts).1.getD i [] = v)
    ∧ (∀ i, i < texts.length →
        (get_cached_embeddings backend OPENAI_EMBEDDING_MODEL texts).getD i none = none →
        (embed_with_cache backend embedOne texts).1.getD i [] = embedOne (texts.getD i ""))
    ∧ (embed_with_cache backend embedOne texts).2.length ≤ 1
    ∧ (embed_with_cache backend embedOne texts).2 =
        (if missingIndices (get_cached_embeddings backend OPENAI_EMBEDDING_MODEL texts) = []
         then []
         else [((texts.zip (get_cached_embeddings backend OPENAI_EMBEDDING_MODEL texts)).filter
                  fun p => p.2 = none).map Prod.fst])
    ∧ ((∀ i, i < texts.length →
          ((get_cached_embeddings backend OPENAI_EMBEDDING_MODEL texts).getD i none).isSome) →
        (embed_with_cache backend embedOne texts).2 = []) := by
  have hunf : embed_with_cache backend embedOne texts =
      (if ((missingIndices (get_cached_embeddings backend OPENAI_EMBEDDING_MODEL texts)).map
            (fun i => texts.getD i "")).isEmpty then
        ((get_cached_embeddings backend OPENAI_EMBEDDING_MODEL texts).map fun v => v.getD [], [])
      else
        ((fillMissing (get_cached_embeddings backend OPENAI_EMBEDDING_MODEL texts)
            (missingIndices (get_cached_embeddings backend OPENAI_EMBEDDING_MODEL texts))
            (((missingIndices (get_cached_embeddings backend OPENAI_EMBEDDING_MODEL texts)).map
              (fun i => texts.getD i "")).map embedOne)).map (fun v => v.getD []),
         [(missingIndices (get_cached_embeddings backend OPENAI_EMBEDDING_MODEL texts)).map
            (fun i => texts.getD i "")])) := rfl
  set cached := get_cached_embeddings backend OPENAI_EMBEDDING_MODEL texts with hc
  by_cases hempty : ((missingIndices cached).map (fun i => texts.getD i "")).isEmpty
  · have hmiss : missingIndices cached = [] := by
      have := List.isEmpty_iff.mp hempty
      exact List.map_eq_nil.mp this
    rw [hunf, if_pos hempty]
    refine ⟨by simpa using hlen, ?_, ?_, by simp, by simp [hmiss], fun _ => rfl⟩
    · intro i v hv
      have hi : i < cached.length := by
        by_contra hge
        rw [List.getD_eq_default _ _ (by omega)] at hv
        exact Option.noConfusion hv
      rw [getD_map_getD_lt _ _ _ none _ hi, hv]
      rfl
    · intro i hi hnone
      have : i ∈ missingIndices cached :=
        (mem_missingIndices cached i).mpr ⟨by omega, hnone⟩
      rw [hmiss] at this
      exact absurd this (List.not_mem_nil i)
  · have hmissne : missingIndices cached ≠ [] := by
      intro h
      exact hempty (by simp [h])
    have hnd := nodup_missingIndices cached
    have hbd : ∀ j ∈ missingIndices cached, j < cached.length :=
      fun j hj => ((mem_missingIndices cached j).mp hj).1
    have hmaps :
        ((missingIndices cached).map (fun i => texts.getD i "")).map embedOne =
          (missingIndices cached).map (fun i => embedOne (texts.getD i "")) := by
      rw [List.map_map]
      rfl
    have hfill := fillMissing_getD (fun i => embedOne (texts.getD i ""))
      (missingIndices cached) cached hnd hbd
    have hflen : (fillMissing cached (missingIndices cached)
        (((missingIndices cached).map (fun i => texts.getD i "")).map embedOne)).length =
        cached.length := fillMissing_length _ _ _
    rw [hunf, if_neg hempty]
    refine ⟨by rw [List.length_map, hflen]; exact hlen, ?_, ?_, by simp, ?_, ?_⟩
    · intro i v hv
      have hi : i < cached.length := by
        by_contra hge
        rw [List.getD_eq_default _ _ (by omega)] at hv
        exact Option.noConfusion hv
      have hnotmem : i ∉ missingIndices cached := by
        intro hmem
        have := ((mem_missingIndices cached i).mp hmem).2
        rw [hv] at this
        exact Option.noConfusion this
      rw [getD_map_getD_lt _ _ _ none _ (by rw [hflen]; exact hi), hmaps, hfill i,
        if_neg hnotmem, hv]
      rfl
    · intro i hi hnone
      have hmem : i ∈ missingIndices cached :=
        (mem_missingIndices cached i).mpr ⟨by omega, hnone⟩
      rw [getD_map_getD_lt _ _ _ none _ (by rw [hflen]; omega), hmaps, hfill i,
        if_pos hmem]
      rfl
    · rw [if_neg hmissne, missingTexts_eq_zip_filter texts cached hlen]
    · intro hall
      exfalso
      rcases List.exists_mem_of_ne_nil _ hmissne with ⟨j, hj⟩
      rcases (mem_missingIndices cached j).mp hj with ⟨hjlt, hjnone⟩
      have := hall j (by omega)
      rw [hjnone] at this
      simp at this

/-- C3 witness: concrete instantiation with no cache backend and a single
input text. -/
theorem C3_embed_with_cache_alignment_witness :
    (get_cached_embeddings none OPENAI_EMBEDDING_MODEL ["a"]).length = ["a"].length
    ∧ (embed_with_cache none (fun _ => ([1] : Vec)) ["a"]).1.length = ["a"].length :=
  ⟨rfl, (C3_embed_with_cache_alignment none (fun _ => ([1] : Vec)) ["a"] rfl).1⟩

theorem missingIndices_all_none (texts : List String) :
    missingIndices (texts.map fun _ => (none : Option Vec)) = List.range texts.length := by
  unfold missingIndices
  rw [List.length_map]
  apply List.filter_eq_self.mpr
  intro i _
  apply decide_eq_true
  rcases Nat.lt_or_ge i texts.length with hi | hi
  · rw [List.getD_eq_getElem _ _ (by simpa using hi), List.getElem_map]
  · exact List.getD_eq_default _ _ (by simpa using hi)

theorem embed_with_cache_all_none (backend : Option RedisBackend)
    (embedOne : String → Vec) (texts : List String)
    (hc : get_cached_embeddings backend OPENAI_EMBEDDING_MODEL texts =
      texts.map fun _ => none) :
    embed_with_cache backend embedOne texts =
      (texts.map embedOne, if texts.isEmpty then [] else [texts]) := by
  have hunf : embed_with_cache backend embedOne texts =
      (if ((missingIndices (get_cached_embeddings backend OPENAI_EMBEDDING_MODEL texts)).map
            (fun i => texts.getD i "")).isEmpty then
        ((get_cached_embeddings backend OPENAI_EMBEDDING_MODEL texts).map fun v => v.getD [], [])
      else
        ((fillMissing (get_cached_embeddings backend OPENAI_EMBEDDING_MODEL texts)
            (missingIndices (get_cached_embeddings backend OPENAI_EMBEDDING_MODEL texts))
            (((missingIndices (get_cached_embeddings backend OPENAI_EMBEDDING_MODEL texts)).map
              (fun i => texts.getD i "")).map embedOne)).map (fun v => v.getD []),
         [(missingIndices (get_cached_embeddings backend OPENAI_EMBEDDING_MODEL texts)).map
            (fun i => texts.getD i "")])) := rfl
  rw [hunf, hc, missingIndices_all_none, range_map_getD texts ""]
  cases texts with
  | nil => rfl
  | cons t ts =>
    rw [if_neg (by simp), if_neg (by simp)]
    have hnd := List.nodup_range (t :: ts).length
    have hbd : ∀ j ∈ List.range (t :: ts).length,
        j < ((t :: ts).map fun _ => (none : Option Vec)).length := by
      intro j hj
      simpa using List.mem_range.mp hj
    have hmaps : (t :: ts).map embedOne =
        (List.range (t :: ts).length).map
          (fun i => embedOne ((t :: ts).getD i "")) := by
      conv_lhs => rw [← range_map_getD (t :: ts) ""]
      rw [List.map_map]
      rfl
    have hfill := fillMissing_getD (fun i => embedOne ((t :: ts).getD i ""))
      (List.range (t :: ts).length) ((t :: ts).map fun _ => (none : Option Vec)) hnd hbd
    have hflen := fillMissing_length (List.range (t :: ts).length)
      ((t :: ts).map fun _ => (none : Option Vec))
      (((List.range (t :: ts).length).map (fun i => (t :: ts).getD i "")).map embedOne)
    refine Prod.ext ?_ rfl
    show (fillMissing ((t :: ts).map fun _ => (none : Option Vec))
        (List.range (t :: ts).length)
        ((t :: ts).map embedOne)).map (fun v => v.getD []) = (t :: ts).map embedOne
    rw [hmaps]
    apply List.ext_getElem
    · rw [List.length_map, List.length_map]
      rw [show ((List.range (t :: ts).length).map
          (fun i => embedOne ((t :: ts).getD i ""))) =
          (((List.range (t :: ts).length).map (fun i => (t :: ts).getD i "")).map embedOne) by
        rw [List.map_map]; rfl]
      rw [hflen]
      simp
    · intro i h1 h2
      have hi : i < (t :: ts).length := by
        simpa using h2
      have hmem : i ∈ List.range (t :: ts).length := List.mem_range.mpr hi
      rw [List.getElem_map, List.getElem_map, List.getElem_range]
      have hlenfill : i < (fillMissing ((t :: ts).map fun _ => (none : Option Vec))
          (List.range (t :: ts).length)
          ((List.range (t :: ts).length).map
            (fun i => embedOne ((t :: ts).getD i "")))).length := by
        rw [fillMissing_length]
        simpa using hi
      rw [← List.getD_eq_getElem _ none hlenfill, hfill i, if_pos hmem]
      rfl

/-- C10: an absent cache backend, or one that raises, never fails the
embed call: get_cached_embeddings returns all-None of the input length
when the backend is missing or the batch-get raises,
set_cached_embeddings swallows every backend error, and embed_with_cache
then degrades to a direct provider call on all inputs. -/
theorem C10_cache_degrades_gracefully :
    (∀ model texts, get_cached_embeddings none model texts = texts.map fun _ => none)
    ∧ (∀ (b : RedisBackend) model texts,
        b.mget (texts.map (_make_cache_key model)) = .error () →
        get_cached_embeddings (some b) model texts = texts.map fun _ => none)
    ∧ (∀ backend model texts vectors,
        ∃ w, set_cached_embeddings backend model texts vectors = .ok w)
    ∧ (∀ (embedOne : String → Vec) texts,
        embed_with_cache none embedOne texts =
          (texts.map embedOne, if texts.isEmpty then [] else [texts]))
    ∧ (∀ (b : RedisBackend) (embedOne : String → Vec) texts,
        (∀ keys, b.mget keys = .error ()) →
        embed_with_cache (some b) embedOne texts =
          (texts.map embedOne, if texts.isEmpty then [] else [texts])) := by
  refine ⟨fun _ _ => rfl, ?_, ?_, ?_, ?_⟩
  · intro b model texts hm
    show (match b.mget (texts.map (_make_cache_key model)) with
      | .error _ => texts.map fun _ => (none : Option Vec)
      | .ok raw_values => raw_values) = texts.map fun _ => none
    rw [hm]
  · intro backend model texts vectors
    cases backend with
    | none => exact ⟨[], rfl⟩
    | some b =>
      show ∃ w, (match b.pipelineNew with
        | .error _ => (.ok [] : Except Unit (List (String × Vec)))
        | .ok _ =>
          match b.executeWrites ((texts.zip vectors).map fun (tv : String × Vec) =>
              (_make_cache_key model tv.1, tv.2)) with
          | .error _ => .ok []
          | .ok _ => .ok ((texts.zip vectors).map fun (tv : String × Vec) =>
              (_make_cache_key model tv.1, tv.2))) = .ok w
      cases b.pipelineNew with
      | error e => exact ⟨[], rfl⟩
      | ok u =>
        cases b.executeWrites ((texts.zip vectors).map fun (tv : String × Vec) =>
            (_make_cache_key model tv.1, tv.2)) with
        | error e => exact ⟨[], rfl⟩
        | ok u => exact ⟨_, rfl⟩
  · intro embedOne texts
    exact embed_with_cache_all_none none embedOne texts rfl
  · intro b embedOne texts hmget
    apply embed_with_cache_all_none (some b) embedOne texts
    show (match b.mget (texts.map (_make_cache_key OPENAI_EMBEDDING_MODEL)) with
      | .error _ => texts.map fun _ => (none : Option Vec)
      | .ok raw_values => raw_values) = texts.map fun _ => none
    rw [hmget]

/-- C10 witness: a backend whose mget and execute always raise, on a
concrete input. -/
theorem C10_cache_degrades_gracefully_witness :
    embed_with_cache
        (some { mget := fun _ => .error (), pipelineNew := .ok (),
                executeWrites := fun _ => .error () })
        (fun _ => ([1] : Vec)) ["a"] =
      (["a"].map fun _ => ([1] : Vec), if (["a"] : List String).isEmpty then [] else [["a"]]) :=
  C10_cache_degrades_gracefully.2.2.2.2
    { mget := fun _ => .error (), pipelineNew := .ok (),
      executeWrites := fun _ => .error () }
    (fun _ => ([1] : Vec)) ["a"] (fun _ => rfl)

/- ================= app/services/vector_store.py ======================= -/

/- Payload values: the JSON-like scalars stored in a vector point's
   payload. -/
inductive PValue : Type
  | s (v : String)
  | i (v : Int)
  | q (v : ℚ)
  | b (v : Bool)
  | nil
deriving DecidableEq, Repr

/- A Python dict modelled as an association list with unique keys; the
   first matching entry is the binding. -/
abbrev Payload := List (String × PValue)

def dictGet : Payload → String → Option PValue
  | [], _ => none
  | kv :: rest, key => if kv.1 = key then some kv.2 else dictGet rest key

/- dict.setdefault(key, v): leaves the dict unchanged when the key is
   already present, otherwise adds the binding. -/
def setdefault (d : Payload) (key : String) (v : PValue) : Payload :=
  if (dictGet d key).isSome then d else d ++ [(key, v)]

theorem dictGet_append (d1 d2 : Payload) (key : String) :
    dictGet (d1 ++ d2) key =
      match dictGet d1 key with
      | some u => some u
      | none => dictGet d2 key := by
  induction d1 with
  | nil => rfl
  | cons kv rest ih =>
    show dictGet (kv :: (rest ++ d2)) key = _
    by_cases h : kv.1 = key
    · simp [dictGet, h]
    · simp only [dictGet, if_neg h]
      exact ih

theorem dictGet_setdefault (d : Payload) (key : String) (v : PValue) (k2 : String) :
    dictGet (setdefault d key v) k2 =
      if k2 = key then some ((dictGet d key).getD v) else dictGet d k2 := by
  unfold setdefault
  by_cases hs : (dictGet d key).isSome
  · rw [if_pos hs]
    by_cases hk : k2 = key
    · subst hk
      rcases Option.isSome_iff_exists.mp hs with ⟨u, hu⟩
      rw [hu, if_pos rfl]
      rfl
    · rw [if_neg hk]
  · rw [if_neg hs]
    rw [dictGet_append]
    have hnone : dictGet d key = none := Option.not_isSome_iff_eq_none.mp hs
    by_cases hk : k2 = key
    · subst hk
      rw [hnone, if_pos rfl]
      simp [dictGet]
    · rw [if_neg hk]
      cases hd : dictGet d k2 with
      | some u => rfl
      | none =>
        show (if key = k2 then some v else dictGet [] k2) = none
        rw [if_neg (fun h => hk h.symm)]
        rfl

/- A point as stored by upsert_embeddings: Qdrant point ID (a freshly
   generated uuid4, modelled by a generator indexed by the position in
   the batch), the vector, and the payload. -/
structure UpsertPoint where
  point_id : String
  vector : Vec
  payload : Payload
deriving DecidableEq, Repr

instance : Inhabited UpsertPoint := ⟨⟨"", [], []⟩⟩

/- The loop "for i in range(len(ids)): payload = dict(metadatas[i]);
   payload.setdefault('logical_id', ids[i]); points.append(PointStruct(
   id=str(uuid4()), vector=vectors[i], payload=payload))". -/
def mkUpsertPoints (uuidGen : Nat → String) :
    Nat → List String → List Vec → List Payload → List UpsertPoint
  | _, [], _, _ => []
  | _, _ :: _, [], _ => []
  | _, _ :: _, _ :: _, [] => []
  | i, id0 :: ids, v0 :: vs, m0 :: ms =>
      { point_id := uuidGen i, vector := v0,
        payload := setdefault m0 "logical_id" (.s id0) } ::
        mkUpsertPoints uuidGen (i + 1) ids vs ms

/- upsert_embeddings: "if not ids: return" comes first; then the length
   check raises ValueError; then one point per position is built and the
   batch is upserted (write-acknowledged).  ensure_collection and the
   Qdrant transport are collaborators outside this model; the returned
   list is the batch handed to the store. -/
def upsert_embeddings (uuidGen : Nat → String) (ids : List String)
    (vectors : List Vec) (metadatas : List Payload) :
    Except String (List UpsertPoint) :=
  if ids.isEmpty then .ok []
  else if ¬(ids.length = vectors.length ∧ vectors.length = metadatas.length) then
    .error "ids, vectors and metadatas must have the same length"
  else .ok (mkUpsertPoints uuidGen 0 ids vectors metadatas)

theorem mkUpsertPoints_spec (uuidGen : Nat → String) :
    ∀ (ids : List String) (vectors : List Vec) (metadatas : List Payload) (i0 : Nat),
      ids.length = vectors.length → vectors.length = metadatas.length →
      (mkUpsertPoints uuidGen i0 ids vectors metadatas).length = ids.length
      ∧ ∀ k, k < ids.length →
          (mkUpsertPoints uuidGen i0 ids vectors metadatas).getD k default =
            { point_id := uuidGen (i0 + k), vector := vectors.getD k [],
              payload := setdefault (metadatas.getD k []) "logical_id"
                (.s (ids.getD k "")) } := by
  intro ids
  induction ids with
  | nil =>
    intro vectors metadatas i0 h1 h2
    exact ⟨rfl, fun k hk => absurd hk (by simp)⟩
  | cons id0 ids ih =>
    intro vectors metadatas i0 h1 h2
    cases vectors with
    | nil => simp at h1
    | cons v0 vs =>
      cases metadatas with
      | nil => simp at h2
      | cons m0 ms =>
        have h1' : ids.length = vs.length := by simpa using h1
        have h2' : vs.length = ms.length := by simpa using h2
        rcases ih vs ms (i0 + 1) h1' h2' with ⟨hlen, hidx⟩
        constructor
        · show (mkUpsertPoints uuidGen (i0 + 1) ids vs ms).length + 1 = ids.length + 1
          rw [hlen]
        · intro k hk
          cases k with
          | zero =>
            simp [mkUpsertPoints, List.getD_cons_zero]
          | succ k =>
            have hk' : k < ids.length := by simpa using hk
            have hred : (mkUpsertPoints uuidGen i0 (id0 :: ids) (v0 :: vs)
                (m0 :: ms)).getD (k + 1) default =
                (mkUpsertPoints uuidGen (i0 + 1) ids vs ms).getD k default := rfl
            rw [hred, hidx k hk']
            have harith : i0 + 1 + k = i0 + (k + 1) := by omega
            rw [harith]
            simp only [List.getD_cons_succ]

/-- C9 counterexample: the claim says the stored payload is metadatas[i]
plus logical_id = ids[i]; but setdefault does not overwrite, so a
metadata entry that already carries a logical_id key keeps it, and the
stored logical_id ("b") differs from ids[0] ("a"). -/
theorem C9_upsert_counterexample :
    upsert_embeddings (fun n => toString n) ["a"] [[1]]
        [[("logical_id", PValue.s "b")]] =
      .ok [{ point_id := "0", vector := [1],
             payload := [("logical_id", PValue.s "b")] }]
    ∧ dictGet [("logical_id", PValue.s "b")] "logical_id" = some (PValue.s "b")
    ∧ PValue.s "b" ≠ PValue.s "a" := by
  refine ⟨?_, rfl, by decide⟩
  rfl

/-- C9 (amended): when ids is empty upsert_embeddings is a no-op even if
the lengths disagree; when ids is nonempty and the three lengths differ
it raises ValueError; otherwise it stores one point per position whose
point ID is freshly drawn from the generator and whose payload is
metadatas[i] with logical_id set to ids[i] unless metadatas[i] already
contains a logical_id key, in which case the existing value is kept. -/
theorem C9_upsert_amended (uuidGen : Nat → String) (ids : List String)
    (vectors : List Vec) (metadatas : List Payload) :
    (ids = [] → upsert_embeddings uuidGen ids vectors metadatas = .ok [])
    ∧ (ids ≠ [] → ¬(ids.length = vectors.length ∧ vectors.length = metadatas.length) →
        upsert_embeddings uuidGen ids vectors metadatas =
          .error "ids, vectors and metadatas must have the same length")
    ∧ (ids.length = vectors.length → vectors.length = metadatas.length →
        ∃ pts, upsert_embeddings uuidGen ids vectors metadatas = .ok pts
          ∧ pts.length = ids.length
          ∧ ∀ k, k < ids.length →
              (pts.getD k default).point_id = uuidGen k
              ∧ (pts.getD k default).vector = vectors.getD k []
              ∧ (∀ key, key ≠ "logical_id" →
                  dictGet (pts.getD k default).payload key =
                    dictGet (metadatas.getD k []) key)
              ∧ dictGet (pts.getD k default).payload "logical_id" =
                  some ((dictGet (metadatas.getD k []) "logical_id").getD
                    (.s (ids.getD k "")))) := by
  refine ⟨?_, ?_, ?_⟩
  · intro h
    subst h
    rfl
  · intro hne hlen
    unfold upsert_embeddings
    rw [if_neg (by simpa using hne), if_pos hlen]
  · intro h1 h2
    cases hids : ids with
    | nil =>
      refine ⟨[], rfl, rfl, fun k hk => absurd hk (by simp)⟩
    | cons id0 rest =>
      subst hids
      refine ⟨mkUpsertPoints uuidGen 0 (id0 :: rest) vectors metadatas, ?_, ?_⟩
      · unfold upsert_embeddings
        rw [if_neg (by simp), if_neg (by simp [h1, h2])]
      · rcases mkUpsertPoints_spec uuidGen (id0 :: rest) vectors metadatas 0 h1 h2 with
          ⟨hlen, hidx⟩
        refine ⟨hlen, fun k hk => ?_⟩
        rw [hidx k hk]
        refine ⟨by simp, rfl, ?_, ?_⟩
        · intro key hkey
          show dictGet (setdefault (metadatas.getD k []) "logical_id"
            (.s ((id0 :: rest).getD k ""))) key = _
          rw [dictGet_setdefault, if_neg hkey]
        · show dictGet (setdefault (metadatas.getD k []) "logical_id"
            (.s ((id0 :: rest).getD k ""))) "logical_id" = _
          rw [dictGet_setdefault, if_pos rfl]

/-- C9 witness: the amended theorem instantiated at a concrete batch of
length one with matching lengths. -/
theorem C9_upsert_amended_witness :
    (["a"] : List String).length = ([[1]] : List Vec).length
    ∧ ∃ pts, upsert_embeddings (fun n => toString n) ["a"] [[1]] [[("k", PValue.i 3)]] =
        .ok pts ∧ pts.length = (["a"] : List String).length
        ∧ ∀ k, k < (["a"] : List String).length →
            (pts.getD k default).point_id = (fun n => toString n) k
            ∧ (pts.getD k default).vector = ([[1]] : List Vec).getD k []
            ∧ (∀ key, key ≠ "logical_id" →
                dictGet (pts.getD k default).payload key =
                  dictGet (([[("k", PValue.i 3)]] : List Payload).getD k []) key)
            ∧ dictGet (pts.getD k default).payload "logical_id" =
                some ((dictGet (([[("k", PValue.i 3)]] : List Payload).getD k [])
                  "logical_id").getD (.s ((["a"] : List String).getD k ""))) :=
  ⟨rfl, (C9_upsert_amended (fun n => toString n) ["a"] [[1]] [[("k", PValue.i 3)]]).2.2
    rfl rfl⟩

/- =============== app/services/retrieval_service.py ==================== -/

/- A Qdrant ScoredPoint as consumed by the retrieval service: id, raw
   score (None possible), optionally the stored vector, and the payload.
   Scores and vector components are float values idealized as rationals;
   derived cosine similarities live in the reals. -/
structure ScoredPoint where
  id : String
  score : Option ℚ
  vector : Option (List ℚ)
  payload : Payload
deriving DecidableEq, Repr

instance : Inhabited ScoredPoint := ⟨⟨"", none, none, []⟩⟩

def sumsq (v : List ℚ) : ℚ := (v.map fun x => x * x).sum

/- cosine_similarity: dot / (na * nb) with na = sqrt(sum x^2),
   nb = sqrt(sum y^2); returns 0.0 when either norm is 0. -/
noncomputable def cosine_similarity (a b : List ℚ) : ℝ :=
  if Real.sqrt ((sumsq a : ℚ) : ℝ) = 0 ∨ Real.sqrt ((sumsq b : ℚ) : ℝ) = 0 then 0
  else ((List.zipWith (fun x y => x * y) a b).sum : ℚ) /
    (Real.sqrt ((sumsq a : ℚ) : ℝ) * Real.sqrt ((sumsq b : ℚ) : ℝ))

theorem cosine_similarity_zero_of_sumsq {a : List ℚ} (b : List ℚ) (h : sumsq a = 0) :
    cosine_similarity a b = 0 ∧ cosine_similarity b a = 0 := by
  have hs : Real.sqrt ((sumsq a : ℚ) : ℝ) = 0 := by
    rw [h]
    push_cast
    exact Real.sqrt_zero
  constructor
  · unfold cosine_similarity
    rw [if_pos (Or.inl hs)]
  · unfold cosine_similarity
    rw [if_pos (Or.inr hs)]

/- max(...) over a nonempty Python generator. -/
noncomputable def listMax : List ℝ → ℝ
  | [] => 0
  | x :: xs => xs.foldl max x

/- sim_to_selected: 0.0 when nothing is selected, else the maximum cosine
   similarity between the candidate and the selected points. -/
noncomputable def simToSelected (cand : ScoredPoint) (selected : List ScoredPoint) : ℝ :=
  match selected with
  | [] => 0
  | _ :: _ => listMax (selected.map fun s =>
      cosine_similarity (cand.vector.getD []) (s.vector.getD []))

/- mmr_scores.sort(key=lambda x: x[0], reverse=True) followed by taking
   element [0]: Python's sort is stable, so this selects the FIRST
   element attaining the maximal score.  bestIdx returns that index. -/
noncomputable def bestIdxAux : List ℝ → Nat → ℝ → Nat → Nat
  | [], _, _, bi => bi
  | x :: xs, i, bv, bi =>
      if bv < x then bestIdxAux xs (i + 1) x i else bestIdxAux xs (i + 1) bv bi

noncomputable def bestIdx : List ℝ → Nat
  | [] => 0
  | x :: xs => bestIdxAux xs 1 x 0

/- The MMR objective for every candidate still in the pool; the pool
   carries each candidate paired with its precomputed query similarity
   (the code keeps two parallel lists and pops the same index from
   both). -/
noncomputable def mmr_scores (lambda_mult : ℝ) (pool : List (ℝ × ScoredPoint))
    (selected : List ScoredPoint) : List ℝ :=
  pool.map fun qc => lambda_mult * qc.1 - (1 - lambda_mult) * simToSelected qc.2 selected

/- The while loop of mmr_rerank: while candidate_pool and
   len(selected) < top_k, pick the best-scoring candidate (earliest on
   ties), remove it from the pool, append it to selected. -/
noncomputable def mmrLoop (lambda_mult : ℝ) :
    Nat → List (ℝ × ScoredPoint) → List ScoredPoint → List ScoredPoint
  | 0, _, selected => selected
  | _ + 1, [], selected => selected
  | fuel + 1, q :: pool, selected =>
      mmrLoop lambda_mult fuel
        ((q :: pool).eraseIdx
          (bestIdx (mmr_scores lambda_mult (q :: pool) selected)))
        (selected ++
          [((q :: pool).getD (bestIdx (mmr_scores lambda_mult (q :: pool) selected)) q).2])

noncomputable def mmr_rerank (query_vec : List ℚ) (candidates : List ScoredPoint)
    (top_k : Nat) (lambda_mult : ℝ) : List ScoredPoint :=
  if candidates.isEmpty then []
  else mmrLoop lambda_mult top_k
    ((candidates.map fun p => cosine_similarity query_vec (p.vector.getD [])).zip candidates)
    []

theorem bestIdxAux_spec :
    ∀ (xs : List ℝ) (i : Nat) (bv : ℝ) (bi : Nat),
      (bestIdxAux xs i bv bi = bi ∧ ∀ j, j < xs.length → xs.getD j 0 ≤ bv)
      ∨ (∃ j, j < xs.length ∧ bestIdxAux xs i bv bi = i + j ∧ bv < xs.getD j 0
          ∧ (∀ k, k < xs.length → xs.getD k 0 ≤ xs.getD j 0)
          ∧ (∀ k, k < j → xs.getD k 0 < xs.getD j 0)) := by
  intro xs
  induction xs with
  | nil =>
    intro i bv bi
    exact Or.inl ⟨rfl, fun j hj => absurd hj (by simp)⟩
  | cons x xs ih =>
    intro i bv bi
    by_cases hx : bv < x
    · have hred : bestIdxAux (x :: xs) i bv bi = bestIdxAux xs (i + 1) x i := by
        show (if bv < x then bestIdxAux xs (i + 1) x i else bestIdxAux xs (i + 1) bv bi) = _
        rw [if_pos hx]
      rcases ih (i + 1) x i with ⟨h1, h2⟩ | ⟨j, hj, hres, hgt, hmax, hearly⟩
      · refine Or.inr ⟨0, by simp, by rw [hred, h1]; omega, by simpa using hx, ?_, ?_⟩
        · intro k hk
          cases k with
          | zero => simp
          | succ k =>
            rw [List.getD_cons_succ, List.getD_cons_zero]
            exact h2 k (by simpa using hk)
        · intro k hk
          exact absurd hk (by omega)
      · refine Or.inr ⟨j + 1, by simpa using hj, ?_, ?_, ?_, ?_⟩
        · rw [hred, hres]
          omega
        · rw [List.getD_cons_succ]
          exact lt_trans hx hgt
        · intro k hk
          cases k with
          | zero =>
            rw [List.getD_cons_zero, List.getD_cons_succ]
            exact le_of_lt hgt
          | succ k =>
            rw [List.getD_cons_succ, List.getD_cons_succ]
            exact hmax k (by simpa using hk)
        · intro k hk
          cases k with
          | zero =>
            rw [List.getD_cons_zero, List.getD_cons_succ]
            exact hgt
          | succ k =>
            rw [List.getD_cons_succ, List.getD_cons_succ]
            exact hearly k (by omega)
    · have hred : bestIdxAux (x :: xs) i bv bi = bestIdxAux xs (i + 1) bv bi := by
        show (if bv < x then bestIdxAux xs (i + 1) x i else bestIdxAux xs (i + 1) bv bi) = _
        rw [if_neg hx]
      rcases ih (i + 1) bv bi with ⟨h1, h2⟩ | ⟨j, hj, hres, hgt, hmax, hearly⟩
      · refine Or.inl ⟨by rw [hred, h1], ?_⟩
        intro k hk
        cases k with
        | zero =>
          rw [List.getD_cons_zero]
          exact not_lt.mp hx
        | succ k =>
          rw [List.getD_cons_succ]
          exact h2 k (by simpa using hk)
      · refine Or.inr ⟨j + 1, by simpa using hj, ?_, ?_, ?_, ?_⟩
        · rw [hred, hres]
          omega
        · rw [List.getD_cons_succ]
          exact hgt
        · intro k hk
          cases k with
          | zero =>
            rw [List.getD_cons_zero, List.getD_cons_succ]
            exact le_of_lt (lt_of_le_of_lt (not_lt.mp hx) hgt)
          | succ k =>
            rw [List.getD_cons_succ, List.getD_cons_succ]
            exact hmax k (by simpa using hk)
        · intro k hk
          cases k with
          | zero =>
            rw [List.getD_cons_zero, List.getD_cons_succ]
            exact lt_of_le_of_lt (not_lt.mp hx) hgt
          | succ k =>
            rw [List.getD_cons_succ, List.getD_cons_succ]
            exact hearly k (by omega)

theorem bestIdx_spec (x : ℝ) (xs : List ℝ) :
    bestIdx (x :: xs) < (x :: xs).length
    ∧ (∀ k, k < (x :: xs).length →
        (x :: xs).getD k 0 ≤ (x :: xs).getD (bestIdx (x :: xs)) 0)
    ∧ (∀ k, k < bestIdx (x :: xs) →
        (x :: xs).getD k 0 < (x :: xs).getD (bestIdx (x :: xs)) 0) := by
  have hdef : bestIdx (x :: xs) = bestIdxAux xs 1 x 0 := rfl
  rcases bestIdxAux_spec xs 1 x 0 with ⟨h1, h2⟩ | ⟨j, hj, hres, hgt, hmax, hearly⟩
  · rw [hdef, h1]
    refine ⟨by simp, ?_, fun k hk => absurd hk (by omega)⟩
    intro k hk
    cases k with
    | zero => simp
    | succ k =>
      rw [List.getD_cons_succ, List.getD_cons_zero]
      exact h2 k (by simpa using hk)
  · have hbi : bestIdx (x :: xs) = j + 1 := by
      rw [hdef, hres]
      omega
    rw [hbi]
    refine ⟨by simpa using hj, ?_, ?_⟩
    · intro k hk
      rw [List.getD_cons_succ]
      cases k with
      | zero =>
        rw [List.getD_cons_zero]
        exact le_of_lt hgt
      | succ k =>
        rw [List.getD_cons_succ]
        exact hmax k (by simpa using hk)
    · intro k hk
      rw [List.getD_cons_succ]
      cases k with
      | zero =>
        rw [List.getD_cons_zero]
        exact hgt
      | succ k =>
        rw [List.getD_cons_succ]
        exact hearly k (by omega)

theorem bestIdxAux_map_mul (lam : ℝ) (hlam : 0 < lam) :
    ∀ (xs : List ℝ) (i : Nat) (bv : ℝ) (bi : Nat),
      bestIdxAux (xs.map fun s => lam * s) i (lam * bv) bi = bestIdxAux xs i bv bi := by
  intro xs
  induction xs with
  | nil =>
    intro i bv bi
    rfl
  | cons x xs ih =>
    intro i bv bi
    show (if lam * bv < lam * x then bestIdxAux (xs.map fun s => lam * s) (i + 1) (lam * x) i
      else bestIdxAux (xs.map fun s => lam * s) (i + 1) (lam * bv) bi) = _
    by_cases hx : bv < x
    · rw [if_pos ((mul_lt_mul_left hlam).mpr hx), ih]
      show _ = (if bv < x then bestIdxAux xs (i + 1) x i else bestIdxAux xs (i + 1) bv bi)
      rw [if_pos hx]
    · rw [if_neg (fun hc => hx ((mul_lt_mul_left hlam).mp hc)), ih]
      show _ = (if bv < x then bestIdxAux xs (i + 1) x i else bestIdxAux xs (i + 1) bv bi)
      rw [if_neg hx]

theorem bestIdx_map_mul (lam : ℝ) (hlam : 0 < lam) (l : List ℝ) :
    bestIdx (l.map fun s => lam * s) = bestIdx l := by
  cases l with
  | nil => rfl
  | cons x xs =>
    show bestIdxAux (xs.map fun s => lam * s) 1 (lam * x) 0 = bestIdxAux xs 1 x 0
    exact bestIdxAux_map_mul lam hlam xs 1 x 0

theorem mmrLoop_append (lam : ℝ) :
    ∀ (fuel : Nat) (pool : List (ℝ × ScoredPoint)) (selected : List ScoredPoint),
      ∃ t, mmrLoop lam fuel pool selected = selected ++ t := by
  intro fuel
  induction fuel with
  | zero =>
    intro pool selected
    exact ⟨[], by simp [mmrLoop]⟩
  | succ fuel ih =>
    intro pool selected
    cases pool with
    | nil => exact ⟨[], by simp [mmrLoop]⟩
    | cons q pool =>
      rcases ih ((q :: pool).eraseIdx (bestIdx (mmr_scores lam (q :: pool) selected)))
        (selected ++
          [((q :: pool).getD (bestIdx (mmr_scores lam (q :: pool) selected)) q).2]) with ⟨t, ht⟩
      refine ⟨((q :: pool).getD (bestIdx (mmr_scores lam (q :: pool) selected)) q).2 :: t, ?_⟩
      show mmrLoop lam fuel _ _ = _
      rw [ht]
      simp

theorem mmrLoop_length (lam : ℝ) :
    ∀ (fuel : Nat) (pool : List (ℝ × ScoredPoint)) (selected : List ScoredPoint),
      (mmrLoop lam fuel pool selected).length = selected.length + min fuel pool.length := by
  intro fuel
  induction fuel with
  | zero =>
    intro pool selected
    simp [mmrLoop]
  | succ fuel ih =>
    intro pool selected
    cases pool with
    | nil => simp [mmrLoop]
    | cons q pool =>
      have hscl : (mmr_scores lam (q :: pool) selected).length = pool.length + 1 := by
        simp [mmr_scores]
      have hbi : bestIdx (mmr_scores lam (q :: pool) selected) < pool.length + 1 := by
        have : mmr_scores lam (q :: pool) selected =
            (lam * q.1 - (1 - lam) * simToSelected q.2 selected) ::
              (pool.map fun qc => lam * qc.1 - (1 - lam) * simToSelected qc.2 selected) := rfl
        rw [this]
        have := (bestIdx_spec (lam * q.1 - (1 - lam) * simToSelected q.2 selected)
          (pool.map fun qc => lam * qc.1 - (1 - lam) * simToSelected qc.2 selected)).1
        simpa using this
      have herase : ((q :: pool).eraseIdx
          (bestIdx (mmr_scores lam (q :: pool) selected))).length = pool.length := by
        rw [List.length_eraseIdx]
        rw [if_pos (by simpa using hbi)]
        simp
      show (mmrLoop lam fuel _ _).length = _
      rw [ih, herase]
      simp only [List.length_append, List.length_cons, List.length_nil]
      omega

theorem mmrLoop_subset (lam : ℝ) :
    ∀ (fuel : Nat) (pool : List (ℝ × ScoredPoint)) (selected : List ScoredPoint)
      (x : ScoredPoint), x ∈ mmrLoop lam fuel pool selected →
      x ∈ selected ∨ x ∈ pool.map Prod.snd := by
  intro fuel
  induction fuel with
  | zero =>
    intro pool selected x hx
    exact Or.inl (by simpa [mmrLoop] using hx)
  | succ fuel ih =>
    intro pool selected x hx
    cases pool with
    | nil => exact Or.inl (by simpa [mmrLoop] using hx)
    | cons q pool =>
      have hx' : x ∈ mmrLoop lam fuel
          ((q :: pool).eraseIdx (bestIdx (mmr_scores lam (q :: pool) selected)))
          (selected ++
            [((q :: pool).getD (bestIdx (mmr_scores lam (q :: pool) selected)) q).2]) := hx
      rcases ih _ _ x hx' with hmem | hmem
      · rcases List.mem_append.mp hmem with hmem | hmem
        · exact Or.inl hmem
        · right
          have hbest : ((q :: pool).getD (bestIdx (mmr_scores lam (q :: pool) selected)) q) ∈
              q :: pool := by
            rcases Nat.lt_or_ge (bestIdx (mmr_scores lam (q :: pool) selected))
              (q :: pool).length with hlt | hge
            · rw [List.getD_eq_getElem _ _ hlt]
              exact List.getElem_mem hlt
            · rw [List.getD_eq_default _ _ hge]
              exact List.mem_cons_self q pool
          have hxeq : x = ((q :: pool).getD
              (bestIdx (mmr_scores lam (q :: pool) selected)) q).2 := by
            simpa using hmem
          rw [hxeq]
          exact List.mem_map_of_mem Prod.snd hbest
      · right
        have hsub := List.eraseIdx_subset (q :: pool)
          (bestIdx (mmr_scores lam (q :: pool) selected))
        rcases List.mem_map.mp hmem with ⟨p, hp, hpx⟩
        exact List.mem_map.mpr ⟨p, hsub hp, hpx⟩

/- Two candidates with identical (absent) vectors and different raw
   scores: every MMR objective value is equal, so the pick is decided
   purely by pool position. -/
def mmrCexA : ScoredPoint := { id := "a", score := some (1/10), vector := none, payload := [] }

def mmrCexB : ScoredPoint := { id := "b", score := some (9/10), vector := none, payload := [] }

theorem mmrLoop_one (lam : ℝ) (q : ℝ × ScoredPoint) (pool : List (ℝ × ScoredPoint))
    (selected : List ScoredPoint) :
    mmrLoop lam 1 (q :: pool) selected =
      selected ++ [((q :: pool).getD (bestIdx (mmr_scores lam (q :: pool) selected)) q).2] :=
  rfl

theorem getD_default_irrel {α : Type} (l : List α) (i : Nat) (d1 d2 : α)
    (h : i < l.length) : l.getD i d1 = l.getD i d2 := by
  rw [List.getD_eq_getElem _ _ h, List.getD_eq_getElem _ _ h]

/-- C4 counterexample: mmr_rerank does not tie-break by descending raw
score.  With query [1] and two candidates whose vectors are both absent,
all candidate MMR objectives are equal (every cosine similarity is 0),
yet the pool's first candidate (raw score 1/10) is picked over the second
(raw score 9/10), so the stated tie-break "by descending raw score, then
insertion order" fails at this input. -/
theorem C4_mmr_counterexample :
    mmr_rerank [1] [mmrCexA, mmrCexB] 1 (1/2) = [mmrCexA]
    ∧ cosine_similarity [1] (mmrCexA.vector.getD []) =
        cosine_similarity [1] (mmrCexB.vector.getD [])
    ∧ mmrCexA.score.getD 0 < mmrCexB.score.getD 0
    ∧ mmrCexA ≠ mmrCexB := by
  have hz : cosine_similarity [1] ([] : List ℚ) = 0 :=
    (cosine_similarity_zero_of_sumsq [1] (show sumsq [] = 0 from rfl)).2
  refine ⟨?_, rfl, by norm_num [mmrCexA, mmrCexB], ?_⟩
  · have hshow : mmr_rerank [1] [mmrCexA, mmrCexB] 1 (1/2) =
        mmrLoop (1/2) 1
          [(cosine_similarity [1] [], mmrCexA), (cosine_similarity [1] [], mmrCexB)] [] := rfl
    rw [hshow, mmrLoop_one]
    have hscores : mmr_scores (1/2)
        [(cosine_similarity [1] [], mmrCexA), (cosine_similarity [1] [], mmrCexB)] [] =
        [0, 0] := by
      simp [mmr_scores, simToSelected, hz]
    rw [hscores]
    have hb : bestIdx [(0 : ℝ), 0] = 0 := by
      show bestIdxAux [0] 1 0 0 = 0
      rw [bestIdxAux, if_neg (lt_irrefl (0 : ℝ))]
      rfl
    rw [hb]
    rfl
  · intro h
    have := congrArg ScoredPoint.id h
    exact absurd this (by decide)

/-- C4 (amended): mmr_rerank greedily selects, from an empty selected
set, the candidate maximizing lambda * cos(query, candidate) -
(1 - lambda) * max over selected of cos(candidate, selected), stopping
when top_k items are selected or the pool empties; ties are broken by
insertion (pool) order only, not by raw score.  For lambda > 0 the first
pick is the earliest candidate with maximal query similarity; cosine
similarity involving a zero-norm vector is 0. -/
theorem C4_mmr_rerank_amended (query_vec : List ℚ) (candidates : List ScoredPoint)
    (top_k : Nat) (lam : ℝ) (hlam : 0 < lam) :
    (mmr_rerank query_vec candidates top_k lam).length = min top_k candidates.length
    ∧ (0 < top_k → candidates ≠ [] →
        ∃ i, i < candidates.length
          ∧ (mmr_rerank query_vec candidates top_k lam).getD 0 default =
              candidates.getD i default
          ∧ (∀ j, j < candidates.length →
              cosine_similarity query_vec ((candidates.getD j default).vector.getD []) ≤
                cosine_similarity query_vec ((candidates.getD i default).vector.getD []))
          ∧ (∀ j, j < i →
              cosine_similarity query_vec ((candidates.getD j default).vector.getD []) <
                cosine_similarity query_vec ((candidates.getD i default).vector.getD [])))
    ∧ (∀ a b : List ℚ, sumsq a = 0 →
        cosine_similarity a b = 0 ∧ cosine_similarity b a = 0) := by
  refine ⟨?_, ?_, fun a b h => cosine_similarity_zero_of_sumsq b h⟩
  · cases candidates with
    | nil => simp [mmr_rerank]
    | cons c cs =>
      have hshow : mmr_rerank query_vec (c :: cs) top_k lam =
          mmrLoop lam top_k
            (((c :: cs).map fun p => cosine_similarity query_vec (p.vector.getD [])).zip
              (c :: cs)) [] := rfl
      rw [hshow, mmrLoop_length]
      simp [List.length_zip]
  · intro htop hne
    cases candidates with
    | nil => exact absurd rfl hne
    | cons c cs =>
      cases top_k with
      | zero => omega
      | succ k =>
        set f : ScoredPoint → ℝ :=
          fun p => cosine_similarity query_vec (p.vector.getD []) with hf
        set qsims := (c :: cs).map f with hq
        have hqlen : qsims.length = cs.length + 1 := by
          rw [hq, List.length_map, List.length_cons]
        have hshow : mmr_rerank query_vec (c :: cs) (k + 1) lam =
            mmrLoop lam (k + 1) (qsims.zip (c :: cs)) [] := rfl
        have hpool : qsims.zip (c :: cs) = (f c, c) :: ((cs.map f).zip cs) := rfl
        have hscores : mmr_scores lam (qsims.zip (c :: cs)) [] =
            qsims.map fun s => lam * s := by
          have e1 : mmr_scores lam (qsims.zip (c :: cs)) [] =
              (qsims.zip (c :: cs)).map fun qc => lam * qc.1 := by
            unfold mmr_scores
            apply List.map_congr_left
            intro qc _
            show lam * qc.1 - (1 - lam) * simToSelected qc.2 [] = lam * qc.1
            show lam * qc.1 - (1 - lam) * 0 = lam * qc.1
            ring
          have e2 : (qsims.zip (c :: cs)).map (fun qc => lam * qc.1) =
              ((qsims.zip (c :: cs)).map Prod.fst).map fun s => lam * s := by
            rw [List.map_map]
            rfl
          rw [e1, e2, List.map_fst_zip qsims (c :: cs) (by rw [hqlen, List.length_cons])]
        have hbi : bestIdx (mmr_scores lam (qsims.zip (c :: cs)) []) = bestIdx qsims := by
          rw [hscores]
          exact bestIdx_map_mul lam hlam qsims
        have hquns : qsims = f c :: cs.map f := rfl
        have hspec := bestIdx_spec (f c) (cs.map f)
        rw [← hquns] at hspec
        rcases hspec with ⟨hlt, hmax, hearly⟩
        have hcc : (c :: cs).length = cs.length + 1 := rfl
        have hclen : bestIdx qsims < (c :: cs).length := by
          rw [List.length_cons]
          omega
        have hqd : ∀ (j : Nat), j < (c :: cs).length →
            qsims.getD j 0 = cosine_similarity query_vec
              (((c :: cs).getD j default).vector.getD []) := by
          intro j hj
          rw [hq]
          exact getD_map_getD_lt f (c :: cs) j default 0 hj
        refine ⟨bestIdx qsims, hclen, ?_, ?_, ?_⟩
        · rw [hshow]
          have hstep : mmrLoop lam (k + 1) (qsims.zip (c :: cs)) [] =
              mmrLoop lam k
                ((qsims.zip (c :: cs)).eraseIdx
                  (bestIdx (mmr_scores lam (qsims.zip (c :: cs)) [])))
                ([] ++ [((qsims.zip (c :: cs)).getD
                  (bestIdx (mmr_scores lam (qsims.zip (c :: cs)) [])) (f c, c)).2]) := by
            rw [hpool]
            rfl
          rw [hstep, hbi]
          rcases mmrLoop_append lam k
            ((qsims.zip (c :: cs)).eraseIdx (bestIdx qsims))
            ([] ++ [((qsims.zip (c :: cs)).getD (bestIdx qsims) (f c, c)).2]) with ⟨t, ht⟩
          rw [ht]
          have hzlen : bestIdx qsims < (qsims.zip (c :: cs)).length := by
            rw [List.length_zip]
            omega
          show (((qsims.zip (c :: cs)).getD (bestIdx qsims) (f c, c)).2 :: t).getD 0 default =
            (c :: cs).getD (bestIdx qsims) default
          rw [List.getD_cons_zero, List.getD_eq_getElem _ _ hzlen, List.getElem_zip]
          exact (List.getD_eq_getElem (c :: cs) default hclen).symm
        · intro j hj
          have h1 := hmax j (by omega)
          rw [hqd j hj, hqd (bestIdx qsims) hclen] at h1
          exact h1
        · intro j hj
          have h1 := hearly j hj
          have hjc : j < (c :: cs).length := by omega
          rw [hqd j hjc, hqd (bestIdx qsims) hclen] at h1
          exact h1

/-- C4 witness: the amended theorem instantiated at lambda = 1, top_k = 1
and a single candidate. -/
theorem C4_mmr_rerank_amended_witness :
    (0 : ℝ) < 1
    ∧ (mmr_rerank [1] [mmrCexA] 1 1).length = min 1 [mmrCexA].length :=
  ⟨by norm_num, (C4_mmr_rerank_amended [1] [mmrCexA] 1 1 (by norm_num)).1⟩

theorem mmr_rerank_length (query_vec : List ℚ) (cands : List ScoredPoint)
    (top_k : Nat) (lam : ℝ) :
    (mmr_rerank query_vec cands top_k lam).length = min top_k cands.length := by
  cases cands with
  | nil => simp [mmr_rerank]
  | cons c cs =>
    have hshow : mmr_rerank query_vec (c :: cs) top_k lam =
        mmrLoop lam top_k
          (((c :: cs).map fun p => cosine_similarity query_vec (p.vector.getD [])).zip
            (c :: cs)) [] := rfl
    rw [hshow, mmrLoop_length]
    simp [List.length_zip]

theorem mmr_rerank_subset (query_vec : List ℚ) (cands : List ScoredPoint)
    (top_k : Nat) (lam : ℝ) :
    ∀ x ∈ mmr_rerank query_vec cands top_k lam, x ∈ cands := by
  intro x hx
  unfold mmr_rerank at hx
  by_cases hc : cands.isEmpty
  · rw [if_pos hc] at hx
    simp at hx
  · rw [if_neg hc] at hx
    rcases mmrLoop_subset lam top_k _ [] x hx with h | h
    · simp at h
    · rw [List.map_snd_zip (cands.map fun p => cosine_similarity query_vec (p.vector.getD []))
        cands (le_of_eq (List.length_map cands _).symm)] at h
      exact h

/- =============== semantic_search (retrieval_service.py) ============== -/

structure RetrievalHit where
  id : String
  score : ℚ
  text : Option PValue
  payload : Payload
deriving DecidableEq, Repr

structure RetrievalResult where
  hits : List RetrievalHit
  used_mmr : Bool
  total_candidates : Nat
deriving DecidableEq, Repr

/- candidate_limit = fetch_k or max(top_k * 3, top_k); Python's `or`
   treats fetch_k = 0 the same as fetch_k = None. -/
def candidate_limit (top_k : Nat) (fetch_k : Option Nat) : Nat :=
  match fetch_k with
  | some kf => if kf ≠ 0 then kf else max (top_k * 3) top_k
  | none => max (top_k * 3) top_k

/- The RetrievalHit built from a ScoredPoint: score None becomes 0.0 and
   the text field is read from the payload. -/
def toHit (p : ScoredPoint) : RetrievalHit :=
  { id := p.id, score := p.score.getD 0, text := dictGet p.payload "text",
    payload := p.payload }

/- semantic_search: embed the query through the cache, ask the store for
   candidate_limit candidates (the store is a collaborator given the
   query vector, the limit, the threshold it may or may not enforce, and
   with_vectors = use_mmr), drop candidates below the threshold locally,
   then MMR-rerank or take the first top_k.  total_candidates counts the
   post-threshold pool. -/
noncomputable def semantic_search (backend : Option RedisBackend)
    (embedOne : String → Vec)
    (store : Vec → Nat → Option ℚ → Bool → List ScoredPoint)
    (query : String) (top_k : Nat) (fetch_k : Option Nat)
    (score_threshold : Option ℚ) (use_mmr : Bool) (mmr_lambda : ℝ) : RetrievalResult :=
  let query_vec := (embed_with_cache backend embedOne [query]).1.getD 0 []
  let points := store query_vec (candidate_limit top_k fetch_k) score_threshold use_mmr
  let points2 :=
    match score_threshold with
    | none => points
    | some t => points.filter fun p => t ≤ p.score.getD 0
  let reranked :=
    if use_mmr then mmr_rerank query_vec points2 top_k mmr_lambda
    else points2.take top_k
  { hits := reranked.map toHit
    used_mmr := use_mmr
    total_candidates := points2.length }

/-- C8 counterexample: fetch_k = 0 is not used as the candidate limit.
With top_k = 1 and fetch_k = some 0 the store is asked for
max(top_k * 3, top_k) = 3 candidates (a store returning one point per
requested slot yields total_candidates = 3), while the claim's
"candidate_limit = fetch_k when fetch_k is given" predicts a request of 0
candidates and hence 0. -/
theorem C8_semantic_search_counterexample :
    (semantic_search none (fun _ => [1])
        (fun _ limit _ _ => List.replicate limit
          { id := "p", score := some 1, vector := none, payload := [] })
        "q" 1 (some 0) none false 0).total_candidates = 3
    ∧ candidate_limit 1 (some 0) = 3
    ∧ (3 : Nat) ≠ 0 := by
  refine ⟨rfl, rfl, by decide⟩

/-- C8 (amended): semantic_search asks the store for candidate_limit
candidates where candidate_limit = fetch_k when fetch_k is given and
nonzero, and max(top_k * 3, top_k) when fetch_k is absent or 0 (Python's
`or` on a falsy int); when score_threshold is set, every returned hit's
score meets it and the post-threshold pool is what total_candidates
counts; with use_mmr = false the hits are the first top_k post-threshold
candidates in store order; the hit list never exceeds top_k. -/
theorem C8_semantic_search_amended (backend : Option RedisBackend)
    (embedOne : String → Vec)
    (store : Vec → Nat → Option ℚ → Bool → List ScoredPoint)
    (query : String) (top_k : Nat) (fetch_k : Option Nat)
    (score_threshold : Option ℚ) (use_mmr : Bool) (mmr_lambda : ℝ) :
    (∀ kf, fetch_k = some kf → kf ≠ 0 → candidate_limit top_k fetch_k = kf)
    ∧ ((fetch_k = none ∨ fetch_k = some 0) →
        candidate_limit top_k fetch_k = max (top_k * 3) top_k)
    ∧ (∀ t, score_threshold = some t →
        ∀ h ∈ (semantic_search backend embedOne store query top_k fetch_k
          score_threshold use_mmr mmr_lambda).hits, t ≤ h.score)
    ∧ (semantic_search backend embedOne store query top_k fetch_k
        score_threshold use_mmr mmr_lambda).hits.length ≤ top_k
    ∧ (use_mmr = false →
        (semantic_search backend embedOne store query top_k fetch_k
          score_threshold use_mmr mmr_lambda).hits =
        ((match score_threshold with
          | none => store ((embed_with_cache backend embedOne [query]).1.getD 0 [])
              (candidate_limit top_k fetch_k) score_threshold use_mmr
          | some t => (store ((embed_with_cache backend embedOne [query]).1.getD 0 [])
              (candidate_limit top_k fetch_k) score_threshold use_mmr).filter
                fun p => t ≤ p.score.getD 0).take top_k).map toHit)
    ∧ (semantic_search backend embedOne store query top_k fetch_k
        score_threshold use_mmr mmr_lambda).total_candidates =
      (match score_threshold with
        | none => store ((embed_with_cache backend embedOne [query]).1.getD 0 [])
            (candidate_limit top_k fetch_k) score_threshold use_mmr
        | some t => (store ((embed_with_cache backend embedOne [query]).1.getD 0 [])
            (candidate_limit top_k fetch_k) score_threshold use_mmr).filter
              fun p => t ≤ p.score.getD 0).length := by
  refine ⟨?_, ?_, ?_, ?_, ?_, ?_⟩
  · intro kf hkf hne
    rw [hkf]
    show (if kf ≠ 0 then kf else max (top_k * 3) top_k) = kf
    rw [if_pos hne]
  · intro hcase
    rcases hcase with hkf | hkf
    · rw [hkf]
      rfl
    · rw [hkf]
      show (if (0 : Nat) ≠ 0 then (0 : Nat) else max (top_k * 3) top_k) = max (top_k * 3) top_k
      rw [if_neg (by omega)]
  · intro t ht h hmem
    subst ht
    have hmem' : h ∈ (if use_mmr then
        mmr_rerank ((embed_with_cache backend embedOne [query]).1.getD 0 [])
          ((store ((embed_with_cache backend embedOne [query]).1.getD 0 [])
            (candidate_limit top_k fetch_k) (some t) use_mmr).filter
              fun p => t ≤ p.score.getD 0) top_k mmr_lambda
      else ((store ((embed_with_cache backend embedOne [query]).1.getD 0 [])
            (candidate_limit top_k fetch_k) (some t) use_mmr).filter
              fun p => t ≤ p.score.getD 0).take top_k).map toHit := hmem
    rcases List.mem_map.mp hmem' with ⟨p, hp, hph⟩
    have hpfil : p ∈ (store ((embed_with_cache backend embedOne [query]).1.getD 0 [])
        (candidate_limit top_k fetch_k) (some t) use_mmr).filter
          fun p => t ≤ p.score.getD 0 := by
      by_cases hm : use_mmr
      · rw [if_pos hm] at hp
        exact mmr_rerank_subset _ _ _ _ p hp
      · rw [if_neg hm] at hp
        exact List.take_subset top_k _ hp
    have hsc : t ≤ p.score.getD 0 := by
      have := (List.mem_filter.mp hpfil).2
      exact of_decide_eq_true this
    rw [← hph]
    exact hsc
  · show (List.map toHit _).length ≤ top_k
    rw [List.length_map]
    by_cases hm : use_mmr
    · rw [if_pos hm, mmr_rerank_length]
      omega
    · rw [if_neg hm, List.length_take]
      omega
  · intro hm
    subst hm
    cases score_threshold with
    | none => rfl
    | some t => rfl
  · cases score_threshold with
    | none => rfl
    | some t => rfl

/-- C8 witness: the amended theorem instantiated at a concrete store and
a zero fetch_k. -/
theorem C8_semantic_search_amended_witness :
    (semantic_search none (fun _ => [1])
        (fun _ limit _ _ => List.replicate limit
          { id := "p", score := some 1, vector := none, payload := [] })
        "q" 1 (some 0) none false 0).hits.length ≤ 1 :=
  (C8_semantic_search_amended none (fun _ => [1])
    (fun _ limit _ _ => List.replicate limit
      { id := "p", score := some 1, vector := none, payload := [] })
    "q" 1 (some 0) none false 0).2.2.2.1

/- ============ app/services/ingestion_pipeline.py ====================== -/

/- The Document fields the pipeline mutates; wall-clock timestamps and
   durations are not modelled. -/
structure DocState where
  status : String
  processing_step : String
  processing_progress : Nat
  error_count : Nat
  last_error : Option String
  text_content : Option String
deriving DecidableEq, Repr

structure ChunkRow where
  document_id : Nat
  chunk_index : Nat
  content : String
deriving DecidableEq, Repr

/- A stored vector point as visible to the pipeline's rollback: the
   payload fields used by delete_embeddings_by_logical_ids and
   delete_embeddings_by_document_id. -/
structure VPoint where
  logical_id : String
  document_id : Nat
deriving DecidableEq, Repr

/- The database plus vector store state the pipeline acts on; commits
   records every committed Document snapshot, in order. -/
structure PipeState where
  doc : DocState
  chunks : List ChunkRow
  vectors : List VPoint
  commits : List DocState
deriving DecidableEq, Repr

/- DocumentIngestionPipeline.STEP_PROGRESS. -/
def STEP_PROGRESS : String → Option Nat
  | "upload" => some 5
  | "ocr" => some 35
  | "chunk" => some 70
  | "embed_store" => some 100
  | "ingest" => some 100
  | "completed" => some 100
  | "error" => some 0
  | _ => none

def commitDoc (st : PipeState) (d : DocState) : PipeState :=
  { st with doc := d, commits := st.commits ++ [d] }

/- _update_progress: progress = STEP_PROGRESS.get(step, current), then
   step, status = "processing", commit. -/
def _update_progress (st : PipeState) (step : String) : PipeState :=
  commitDoc st { st.doc with
    processing_step := step
    processing_progress := (STEP_PROGRESS step).getD st.doc.processing_progress
    status := "processing" }

def _mark_started (st : PipeState) : PipeState :=
  commitDoc st { st.doc with
    status := "processing"
    processing_step := "starting"
    processing_progress := 0
    last_error := none }

def _mark_completed (st : PipeState) : PipeState :=
  commitDoc st { st.doc with
    status := "completed"
    processing_step := "ingest"
    processing_progress := 100 }

/- Failure injection for one run: each stage either succeeds or raises
   the given exception message (the first scheduled failure fires, since
   later stages never run); the two rollback helpers can be made to fail
   to check that both deletions are still attempted and the original
   exception still propagates. -/
structure FailPlan where
  ocrFails : Option String := none
  chunkFails : Option String := none
  indexFails : Option String := none
  finalizeFails : Option String := none
  chunkRollbackFails : Bool := false
  vectorRollbackFails : Bool := false
deriving DecidableEq, Repr

/- _rollback_chunks: delete all chunk rows of the document; its own
   try/except swallows a rollback failure (modelled as leaving the rows
   in place). -/
def _rollback_chunks (plan : FailPlan) (st : PipeState) (docId : Nat) : PipeState :=
  if plan.chunkRollbackFails then st
  else { st with chunks := st.chunks.filter fun c => c.document_id ≠ docId }

/- _rollback_embeddings: delete_embeddings_by_logical_ids over the
   recorded ids; its own try/except swallows a failure. -/
def _rollback_embeddings (plan : FailPlan) (st : PipeState)
    (logical_ids : List String) : PipeState :=
  if plan.vectorRollbackFails then st
  else { st with vectors := st.vectors.filter fun p => !(logical_ids.contains p.logical_id) }

/- _handle_failure: rollback chunks, rollback embeddings (both always
   attempted), then mark the document error, freeze the progress
   ("or 0" is the identity on Nat), bump error_count, record the
   message, commit. -/
def _handle_failure (plan : FailPlan) (st : PipeState) (docId : Nat) (exc : String)
    (logical_ids : List String) : PipeState :=
  let st1 := _rollback_chunks plan st docId
  let st2 := _rollback_embeddings plan st1 logical_ids
  commitDoc st2 { st2.doc with
    status := "error"
    processing_step := "error"
    error_count := st2.doc.error_count + 1
    last_error := some exc }

structure RunTrace where
  result : Except String Nat
  state : PipeState
  rollback_chunks_attempted : Bool
  rollback_vectors_attempted : Bool
deriving Repr

/- DocumentIngestionPipeline.run on one document: mark started, commit
   the upload step, then OCR (sets text_content), chunk (the default
   chunk runner replaces the document's chunk rows), index (the default
   index runner deletes the document's old points and upserts one point
   per logical id, returning the ids; failures inside it leave the store
   unchanged in this atomic model), the embed_store progress commit, and
   the terminal commit (finalizeFails models the terminal commit
   raising, after which the recorded logical ids are already set).  Any
   exception runs _handle_failure and is re-raised. -/
def pipeline_run (plan : FailPlan) (docId : Nat) (ocrText : String)
    (chunkRows : List ChunkRow) (logicalIds : List String) (st0 : PipeState) : RunTrace :=
  let st1 := _mark_started st0
  let st2 := _update_progress st1 "upload"
  match plan.ocrFails with
  | some exc =>
      { result := .error exc, state := _handle_failure plan st2 docId exc []
        rollback_chunks_attempted := true, rollback_vectors_attempted := true }
  | none =>
  let st3 := _update_progress
    { st2 with doc := { st2.doc with text_content := some ocrText } } "ocr"
  match plan.chunkFails with
  | some exc =>
      { result := .error exc, state := _handle_failure plan st3 docId exc []
        rollback_chunks_attempted := true, rollback_vectors_attempted := true }
  | none =>
  let st4 := _update_progress
    { st3 with chunks := st3.chunks.filter (fun c => c.document_id ≠ docId) ++ chunkRows }
    "chunk"
  match plan.indexFails with
  | some exc =>
      { result := .error exc, state := _handle_failure plan st4 docId exc []
        rollback_chunks_attempted := true, rollback_vectors_attempted := true }
  | none =>
  let st5 := _update_progress
    { st4 with vectors := st4.vectors.filter (fun p => p.document_id ≠ docId) ++
        logicalIds.map fun lid => { logical_id := lid, document_id := docId } }
    "embed_store"
  match plan.finalizeFails with
  | some exc =>
      { result := .error exc, state := _handle_failure plan st5 docId exc logicalIds
        rollback_chunks_attempted := true, rollback_vectors_attempted := true }
  | none =>
  { result := .ok logicalIds.length, state := _mark_completed st5
    rollback_chunks_attempted := false, rollback_vectors_attempted := false }

/- The first exception a plan schedules (stages run in order). -/
def firstExc (plan : FailPlan) : Option String :=
  match plan.ocrFails with
  | some e => some e
  | none =>
    match plan.chunkFails with
    | some e => some e
    | none =>
      match plan.indexFails with
      | some e => some e
      | none => plan.finalizeFails

/- The vector points created by the run: the upsert happens only when
   OCR, chunking and indexing all succeed. -/
def run_created_points (plan : FailPlan) (docId : Nat) (logicalIds : List String) :
    List VPoint :=
  if plan.ocrFails = none ∧ plan.chunkFails = none ∧ plan.indexFails = none then
    logicalIds.map fun lid => { logical_id := lid, document_id := docId }
  else []

theorem mem_filter_ne_doc (l : List ChunkRow) (docId : Nat) :
    ∀ c ∈ l.filter (fun c => c.document_id ≠ docId), c.document_id ≠ docId := by
  intro c hc
  exact of_decide_eq_true (List.mem_filter.mp hc).2

theorem mem_filter_not_created (l : List VPoint) (ids : List String) (docId : Nat) :
    ∀ p ∈ l.filter (fun p => !(ids.contains p.logical_id)),
      p ∉ ids.map fun lid => ({ logical_id := lid, document_id := docId } : VPoint) := by
  intro p hp hmem
  have h2 := (List.mem_filter.mp hp).2
  rcases List.mem_map.mp hmem with ⟨lid, hlid, hplid⟩
  have hplid' : p.logical_id = lid := by rw [← hplid]
  have hcon : ids.contains p.logical_id = true := by
    rw [hplid']
    exact List.elem_eq_true_of_mem hlid
  rw [hcon] at h2
  simp at h2

theorem not_created_of_not_contains (p : VPoint) (ids : List String) (docId : Nat)
    (h : ¬ (ids.contains p.logical_id = true)) :
    p ∉ ids.map fun lid => ({ logical_id := lid, document_id := docId } : VPoint) := by
  intro hmem
  rcases List.mem_map.mp hmem with ⟨lid, hlid, hplid⟩
  apply h
  have hplid' : p.logical_id = lid := by rw [← hplid]
  rw [hplid']
  exact List.elem_eq_true_of_mem hlid

theorem handle_failure_spec (plan : FailPlan) (st : PipeState) (docId : Nat) (exc : String)
    (ids : List String) :
    (_handle_failure plan st docId exc ids).doc.status = "error"
    ∧ (_handle_failure plan st docId exc ids).doc.last_error = some exc
    ∧ (_handle_failure plan st docId exc ids).doc.error_count = st.doc.error_count + 1
    ∧ (plan.chunkRollbackFails = false →
        ∀ c ∈ (_handle_failure plan st docId exc ids).chunks, c.document_id ≠ docId)
    ∧ (plan.vectorRollbackFails = false →
        ∀ p ∈ (_handle_failure plan st docId exc ids).vectors,
          ¬ (ids.contains p.logical_id = true)) := by
  obtain ⟨o, ch, ix, fz, rb1, rb2⟩ := plan
  cases rb1 <;> cases rb2 <;> refine ⟨rfl, rfl, rfl, ?_, ?_⟩
  · intro _ c hc
    exact of_decide_eq_true (List.mem_filter.mp hc).2
  · intro _ p hp
    have h2 := (List.mem_filter.mp hp).2
    intro hcon
    rw [hcon] at h2
    simp at h2
  · intro _ c hc
    exact of_decide_eq_true (List.mem_filter.mp hc).2
  · intro h
    exact Bool.noConfusion h
  · intro h
    exact Bool.noConfusion h
  · intro _ p hp
    have h2 := (List.mem_filter.mp hp).2
    intro hcon
    rw [hcon] at h2
    simp at h2
  · intro h
    exact Bool.noConfusion h
  · intro h
    exact Bool.noConfusion h

/-- C1: when any stage of a pipeline run raises, the run deletes all
chunk rows of the document, deletes the vector points for the logical IDs
recorded during upsert, and marks the document error with last_error set
and error_count incremented; both deletions are attempted even when one
of them fails, the original (first) exception propagates — never a
rollback failure — and, when the rollbacks themselves succeed, no chunk
and no vector point created in that run survives. -/
theorem C1_pipeline_failure_rollback (plan : FailPlan) (docId : Nat) (ocrText : String)
    (chunkRows : List ChunkRow) (logicalIds : List String) (st0 : PipeState)
    (exc : String) (hfail : firstExc plan = some exc) :
    (pipeline_run plan docId ocrText chunkRows logicalIds st0).result = .error exc
    ∧ (pipeline_run plan docId ocrText chunkRows logicalIds st0).rollback_chunks_attempted =
        true
    ∧ (pipeline_run plan docId ocrText chunkRows logicalIds st0).rollback_vectors_attempted =
        true
    ∧ (pipeline_run plan docId ocrText chunkRows logicalIds st0).state.doc.status = "error"
    ∧ (pipeline_run plan docId ocrText chunkRows logicalIds st0).state.doc.last_error =
        some exc
    ∧ (pipeline_run plan docId ocrText chunkRows logicalIds st0).state.doc.error_count =
        st0.doc.error_count + 1
    ∧ (plan.chunkRollbackFails = false →
        ∀ c ∈ (pipeline_run plan docId ocrText chunkRows logicalIds st0).state.chunks,
          c.document_id ≠ docId)
    ∧ (plan.vectorRollbackFails = false →
        ∀ p ∈ (pipeline_run plan docId ocrText chunkRows logicalIds st0).state.vectors,
          p ∉ run_created_points plan docId logicalIds) := by
  obtain ⟨o, ch, ix, fz, rb1, rb2⟩ := plan
  cases o with
  | some e =>
    simp only [firstExc] at hfail
    injection hfail with he
    subst he
    refine ⟨rfl, rfl, rfl, (handle_failure_spec _ _ _ _ _).1,
      (handle_failure_spec _ _ _ _ _).2.1, (handle_failure_spec _ _ _ _ _).2.2.1,
      (handle_failure_spec _ _ _ _ _).2.2.2.1, ?_⟩
    intro _ p _ hmem
    exact List.not_mem_nil p hmem
  | none =>
    cases ch with
    | some e =>
      simp only [firstExc] at hfail
      injection hfail with he
      subst he
      refine ⟨rfl, rfl, rfl, (handle_failure_spec _ _ _ _ _).1,
        (handle_failure_spec _ _ _ _ _).2.1, (handle_failure_spec _ _ _ _ _).2.2.1,
        (handle_failure_spec _ _ _ _ _).2.2.2.1, ?_⟩
      intro _ p _ hmem
      exact List.not_mem_nil p hmem
    | none =>
      cases ix with
      | some e =>
        simp only [firstExc] at hfail
        injection hfail with he
        subst he
        refine ⟨rfl, rfl, rfl, (handle_failure_spec _ _ _ _ _).1,
          (handle_failure_spec _ _ _ _ _).2.1, (handle_failure_spec _ _ _ _ _).2.2.1,
          (handle_failure_spec _ _ _ _ _).2.2.2.1, ?_⟩
        intro _ p _ hmem
        exact List.not_mem_nil p hmem
      | none =>
        cases fz with
        | none =>
          simp [firstExc] at hfail
        | some e =>
          simp only [firstExc] at hfail
          injection hfail with he
          subst he
          refine ⟨rfl, rfl, rfl, (handle_failure_spec _ _ _ _ _).1,
            (handle_failure_spec _ _ _ _ _).2.1, (handle_failure_spec _ _ _ _ _).2.2.1,
            (handle_failure_spec _ _ _ _ _).2.2.2.1, ?_⟩
          intro hrb p hp
          have hni := (handle_failure_spec _ _ _ _ _).2.2.2.2 hrb p hp
          exact not_created_of_not_contains p logicalIds docId hni

/- A concrete initial state for witnesses: a pending document with one
   pre-existing chunk row and one vector point. -/
def c1InitDoc : DocState :=
  { status := "pending", processing_step := "upload", processing_progress := 0,
    error_count := 0, last_error := none, text_content := none }

def c1InitState : PipeState :=
  { doc := c1InitDoc,
    chunks := [{ document_id := 1, chunk_index := 0, content := "old" }],
    vectors := [{ logical_id := "1_0", document_id := 1 }],
    commits := [] }

/-- C1 witness: a run whose chunking stage raises, on a concrete initial
state holding one chunk and one vector point of the document. -/
theorem C1_pipeline_failure_rollback_witness :
    firstExc { chunkFails := some "chunking failed" } = some "chunking failed"
    ∧ (pipeline_run { chunkFails := some "chunking failed" } 1 "hello world"
        [] [] c1InitState).result = .error "chunking failed" :=
  ⟨rfl, (C1_pipeline_failure_rollback { chunkFails := some "chunking failed" } 1
    "hello world" [] [] c1InitState "chunking failed" rfl).1⟩

/-- C5: within one pipeline run, the committed processing_progress values
are monotonically non-decreasing from run start to the terminal commit,
advancing through upload = 5, ocr = 35, chunk = 70, embed_store = 100,
and every commit (including the terminal document state) with
status = completed carries processing_progress = 100. -/
theorem C5_progress_monotone (plan : FailPlan) (docId : Nat) (ocrText : String)
    (chunkRows : List ChunkRow) (logicalIds : List String) (st0 : PipeState)
    (hc : st0.commits = []) :
    (STEP_PROGRESS "upload" = some 5 ∧ STEP_PROGRESS "ocr" = some 35
      ∧ STEP_PROGRESS "chunk" = some 70 ∧ STEP_PROGRESS "embed_store" = some 100)
    ∧ List.Chain' (· ≤ ·)
        ((pipeline_run plan docId ocrText chunkRows logicalIds st0).state.commits.map
          fun d => d.processing_progress)
    ∧ (∀ d ∈ (pipeline_run plan docId ocrText chunkRows logicalIds st0).state.commits,
        d.status = "completed" → d.processing_progress = 100)
    ∧ ((pipeline_run plan docId ocrText chunkRows logicalIds st0).state.doc.status =
          "completed" →
        (pipeline_run plan docId ocrText chunkRows logicalIds st0).state.doc.processing_progress
          = 100) := by
  obtain ⟨o, ch, ix, fz, rb1, rb2⟩ := plan
  refine ⟨⟨rfl, rfl, rfl, rfl⟩, ?_⟩
  cases o <;> cases ch <;> cases ix <;> cases fz <;> cases rb1 <;> cases rb2 <;>
    simp [pipeline_run, _mark_started, _update_progress, _mark_completed, _handle_failure,
      _rollback_chunks, _rollback_embeddings, commitDoc, STEP_PROGRESS, hc,
      List.chain'_cons, List.forall_mem_cons]

/-- C5 witness: a run with no injected failures from an empty commit
trace. -/
theorem C5_progress_monotone_witness :
    ({ doc := c1InitDoc, chunks := [], vectors := [], commits := [] } : PipeState).commits = []
    ∧ List.Chain' (· ≤ ·)
        ((pipeline_run {} 1 "hello" [] ["1_0"]
          { doc := c1InitDoc, chunks := [], vectors := [], commits := [] }).state.commits.map
            fun d => d.processing_progress) :=
  ⟨rfl, (C5_progress_monotone {} 1 "hello" [] ["1_0"]
    { doc := c1InitDoc, chunks := [], vectors := [], commits := [] } rfl).2.1⟩

/- ======= _normalize_chunk_for_index + app/services/indexing_pipeline == -/

/- The Document fields read while building index payloads; the iso-format
   created_at string is not modelled, only its unix-seconds value. -/
structure DocInfo where
  id : Nat
  owner_id : Int
  name : String
  original_filename : String
  content_type : String
  created_at_ts : Option Int
deriving DecidableEq, Repr

/- The duck-typed chunk accepted by the indexer (dict, Pydantic model or
   ORM row): every attribute _normalize_chunk_for_index reads, each
   possibly absent.  The id attribute may be an int (ChunkInDB's database
   id) or a string (dict-shaped chunks). -/
structure ChunkRec where
  id : Option PValue := none
  content : Option String := none
  text : Option String := none
  chunk_index : Option Int := none
  page_number : Option Int := none
  page : Option Int := none
  document_owner_id : Option Int := none
  owner_id : Option Int := none
deriving DecidableEq, Repr

instance : Inhabited ChunkRec := ⟨{}⟩

def PValue.truthy : PValue → Bool
  | .s v => v ≠ ""
  | .i v => v ≠ 0
  | .q v => v ≠ 0
  | .b v => v
  | .nil => false

def PValue.pyStr : PValue → String
  | .s v => v
  | .i v => toString v
  | .q v => toString v
  | .b v => if v then "True" else "False"
  | .nil => "None"

/- Python `a or b` over an optional int with 0 falsy. -/
def pyOrInt (a : Option Int) (dflt : Int) : Int :=
  match a with
  | some x => if x ≠ 0 then x else dflt
  | none => dflt

structure IndexPayload where
  id : String
  text : String
  chunk_index : Int
  page : Option Int
  document_id : Nat
  document_owner_id : Int
  document_name : String
  document_original_filename : String
  content_type : String
  document_created_at_ts : Option Int
deriving DecidableEq, Repr

instance : Inhabited IndexPayload := ⟨⟨"", "", 0, none, 0, 0, "", "", "", none⟩⟩

/- _normalize_chunk_for_index: text is content-or-text with Python
   truthiness ("" falsy) and raises when missing; chunk_index falls back
   to the enumeration index on None (not on 0); page prefers "page" over
   "page_number" (None check); owner is the truthiness chain
   document_owner_id or owner_id or document.owner_id; the logical id is
   str(data.get("id") or f"{document.id}_{chunk_index}"). -/
def _normalize_chunk_for_index (chunk : ChunkRec) (document : DocInfo)
    (fallback_index : Nat) : Except String IndexPayload :=
  let textOpt : Option String :=
    match chunk.content with
    | some c => if c ≠ "" then some c else chunk.text
    | none => chunk.text
  match textOpt with
  | none => .error "Chunk missing text content for embedding"
  | some t =>
    if t = "" then .error "Chunk missing text content for embedding"
    else
      let chunk_index : Int :=
        match chunk.chunk_index with
        | some ci => ci
        | none => (fallback_index : Int)
      let page : Option Int :=
        match chunk.page with
        | some p => some p
        | none => chunk.page_number
      let owner_id : Int := pyOrInt chunk.document_owner_id
        (pyOrInt chunk.owner_id document.owner_id)
      let logical_id : String :=
        match chunk.id with
        | some v =>
          if v.truthy then v.pyStr
          else toString document.id ++ "_" ++ toString chunk_index
        | none => toString document.id ++ "_" ++ toString chunk_index
      .ok { id := logical_id, text := t, chunk_index := chunk_index, page := page,
            document_id := document.id, document_owner_id := owner_id,
            document_name := document.name,
            document_original_filename := document.original_filename,
            content_type := document.content_type,
            document_created_at_ts := document.created_at_ts }

/- The logical id the amended claim predicts for a chunk: str(chunk.id)
   when the chunk carries a truthy id attribute, otherwise
   "{document_id}_{chunk_index}" with the enumeration index as the
   chunk_index fallback. -/
def expected_logical_id (chunk : ChunkRec) (document : DocInfo) (fallback_index : Nat) :
    String :=
  let ci : Int :=
    match chunk.chunk_index with
    | some n => n
    | none => (fallback_index : Int)
  match chunk.id with
  | some v => if v.truthy then v.pyStr else toString document.id ++ "_" ++ toString ci
  | none => toString document.id ++ "_" ++ toString ci

/- The list comprehension "[self._normalize_chunk_for_index(chunk,
   document, idx) for idx, chunk in enumerate(chunks)]"; the first
   normalization error aborts. -/
def normalizeAll (document : DocInfo) : Nat → List ChunkRec → Except String (List IndexPayload)
  | _, [] => .ok []
  | idx, c :: cs =>
    match _normalize_chunk_for_index c document idx with
    | .error e => .error e
    | .ok p =>
      match normalizeAll document (idx + 1) cs with
      | .error e => .error e
      | .ok ps => .ok (p :: ps)

/- index_chunks builds one metadata dict per chunk (note: it has no
   logical_id key; owner_id is the Python-or chain with 0 falsy and the
   iso created_at string is not modelled), embeds the chunk texts through
   the cache and upserts. -/
def payloadToMetadata (p : IndexPayload) : Payload :=
  [("file_id", PValue.nil),
   ("document_id", PValue.i (p.document_id : Int)),
   ("owner_id", if p.document_owner_id ≠ 0 then PValue.i p.document_owner_id else PValue.nil),
   ("page", match p.page with | some n => PValue.i n | none => PValue.nil),
   ("chunk_index", PValue.i p.chunk_index),
   ("content_type", PValue.s p.content_type),
   ("document_created_at_ts",
     match p.document_created_at_ts with | some n => PValue.i n | none => PValue.nil),
   ("text", PValue.s p.text)]

def index_chunks (backend : Option RedisBackend) (embedOne : String → Vec)
    (uuidGen : Nat → String) (chunks : List IndexPayload) :
    Except String (List UpsertPoint) :=
  if chunks.isEmpty then .ok []
  else
    upsert_embeddings uuidGen (chunks.map fun c => c.id)
      (embed_with_cache backend embedOne (chunks.map fun c => c.text)).1
      (chunks.map payloadToMetadata)

/- _default_index_runner: normalize every chunk with its enumeration
   index; when payloads is nonempty, delete the document's existing
   points (an effect carried by the pipeline model) and index the
   payloads; return the stored points together with the recorded logical
   ids [p["id"] for p in payloads]. -/
def _default_index_runner (backend : Option RedisBackend) (embedOne : String → Vec)
    (uuidGen : Nat → String) (chunks : List ChunkRec) (document : DocInfo) :
    Except String (List UpsertPoint × List String) :=
  match normalizeAll document 0 chunks with
  | .error e => .error e
  | .ok payloads =>
    if payloads.isEmpty then .ok ([], [])
    else
      match index_chunks backend embedOne uuidGen payloads with
      | .error e => .error e
      | .ok pts => .ok (pts, payloads.map fun p => p.id)

theorem normalize_id_eq_expected (chunk : ChunkRec) (document : DocInfo)
    (idx : Nat) (p : IndexPayload)
    (h : _normalize_chunk_for_index chunk document idx = .ok p) :
    p.id = expected_logical_id chunk document idx := by
  unfold _normalize_chunk_for_index at h
  simp only [] at h
  split at h
  · exact Except.noConfusion h
  · split at h
    · exact Except.noConfusion h
    · injection h with hp
      rw [← hp]
      rfl

theorem normalizeAll_spec (document : DocInfo) :
    ∀ (chunks : List ChunkRec) (i0 : Nat) (ps : List IndexPayload),
      normalizeAll document i0 chunks = .ok ps →
      ps.length = chunks.length
      ∧ ∀ k, k < chunks.length →
          _normalize_chunk_for_index (chunks.getD k default) document (i0 + k) =
            .ok (ps.getD k default) := by
  intro chunks
  induction chunks with
  | nil =>
    intro i0 ps h
    injection h with h
    subst h
    exact ⟨rfl, fun k hk => absurd hk (by simp)⟩
  | cons c cs ih =>
    intro i0 ps h
    unfold normalizeAll at h
    cases hn : _normalize_chunk_for_index c document i0 with
    | error e =>
      rw [hn] at h
      exact Except.noConfusion h
    | ok p =>
      rw [hn] at h
      simp only at h
      cases hrest : normalizeAll document (i0 + 1) cs with
      | error e =>
        rw [hrest] at h
        exact Except.noConfusion h
      | ok ps' =>
        rw [hrest] at h
        injection h with h
        subst h
        rcases ih (i0 + 1) ps' hrest with ⟨hlen, hidx⟩
        refine ⟨by simp [hlen], ?_⟩
        intro k hk
        cases k with
        | zero =>
          simpa using hn
        | succ k =>
          have hk' : k < cs.length := by simpa using hk
          have := hidx k hk'
          rw [List.getD_cons_succ, List.getD_cons_succ]
          have harith : i0 + (k + 1) = i0 + 1 + k := by omega
          rw [harith]
          exact this

theorem metadata_no_logical_id (p : IndexPayload) :
    dictGet (payloadToMetadata p) "logical_id" = none := by
  unfold payloadToMetadata dictGet
  simp [dictGet]

theorem upsert_ok_inv (uuidGen : Nat → String) (ids : List String) (vectors : List Vec)
    (metadatas : List Payload) (pts : List UpsertPoint)
    (hne : ids ≠ [])
    (h : upsert_embeddings uuidGen ids vectors metadatas = .ok pts) :
    ids.length = vectors.length ∧ vectors.length = metadatas.length
    ∧ pts = mkUpsertPoints uuidGen 0 ids vectors metadatas := by
  unfold upsert_embeddings at h
  rw [if_neg (by simpa using hne)] at h
  by_cases hcond : ids.length = vectors.length ∧ vectors.length = metadatas.length
  · rw [if_neg (not_not_intro hcond)] at h
    injection h with h
    exact ⟨hcond.1, hcond.2, h.symm⟩
  · rw [if_pos hcond] at h
    exact Except.noConfusion h

/-- C2 counterexample: a chunk persisted by the default chunk runner
carries its database id (here 7); the stored point's payload logical_id
is then str(7) = "7" and not "{document_id}_{chunk_index}" = "1_0". -/
theorem C2_logical_id_counterexample :
    (match _default_index_runner none (fun _ => [1]) (fun n => toString n)
        [{ id := some (PValue.i 7), content := some "hello", chunk_index := some 0,
           document_owner_id := some 1 }]
        { id := 1, owner_id := 1, name := "doc", original_filename := "doc.pdf",
          content_type := "application/pdf", created_at_ts := none } with
      | .ok (pts, lids) => (pts.map fun pt => dictGet pt.payload "logical_id", lids)
      | .error _ => ([], [])) = ([some (PValue.s "7")], ["7"])
    ∧ PValue.s "7" ≠ PValue.s "1_0" := by
  constructor
  · rfl
  · decide

/-- C2 (amended): for every chunk indexed by a successful default index
run, the stored vector point's payload logical_id (and the recorded
logical id) is str(chunk.id) when the chunk carries a truthy id
attribute, and "{document_id}_{chunk_index}" (with the enumeration index
as chunk_index fallback) otherwise. -/
theorem C2_logical_id_amended (backend : Option RedisBackend) (embedOne : String → Vec)
    (uuidGen : Nat → String) (chunks : List ChunkRec) (document : DocInfo)
    (pts : List UpsertPoint) (lids : List String)
    (hok : _default_index_runner backend embedOne uuidGen chunks document = .ok (pts, lids)) :
    pts.length = chunks.length
    ∧ lids.length = chunks.length
    ∧ ∀ k, k < chunks.length →
        dictGet (pts.getD k default).payload "logical_id" =
          some (.s (expected_logical_id (chunks.getD k default) document k))
        ∧ lids.getD k "" = expected_logical_id (chunks.getD k default) document k := by
  unfold _default_index_runner at hok
  cases hnorm : normalizeAll document 0 chunks with
  | error e =>
    rw [hnorm] at hok
    exact Except.noConfusion hok
  | ok payloads =>
    rw [hnorm] at hok
    simp only [] at hok
    rcases normalizeAll_spec document chunks 0 payloads hnorm with ⟨hplen, hpidx⟩
    by_cases hpe : payloads.isEmpty
    · rw [if_pos hpe] at hok
      injection hok with hpair
      injection hpair with hpts hlids
      have hpnil : payloads = [] := List.isEmpty_iff.mp hpe
      have hch : chunks.length = 0 := by
        rw [hpnil] at hplen
        simpa using hplen.symm
      refine ⟨by rw [← hpts, hch]; rfl, by rw [← hlids, hch]; rfl, ?_⟩
      intro k hk
      rw [hch] at hk
      exact absurd hk (by omega)
    · rw [if_neg hpe] at hok
      cases hidx : index_chunks backend embedOne uuidGen payloads with
      | error e =>
        rw [hidx] at hok
        exact Except.noConfusion hok
      | ok pts' =>
        rw [hidx] at hok
        injection hok with hpair
        injection hpair with hpts hlids
        have hpne : payloads ≠ [] := by
          intro hh
          rw [hh] at hpe
          exact hpe rfl
        unfold index_chunks at hidx
        rw [if_neg hpe] at hidx
        have hidsne : (payloads.map fun c => c.id) ≠ [] := by
          intro hh
          exact hpne (List.map_eq_nil.mp hh)
        rcases upsert_ok_inv uuidGen _ _ _ pts' hidsne hidx with ⟨hl1, hl2, hform⟩
        have hidslen : (payloads.map fun c => c.id).length = chunks.length := by
          rw [List.length_map, hplen]
        rcases mkUpsertPoints_spec uuidGen _ _ _ 0 hl1 hl2 with ⟨hmlen, hmidx⟩
        have hptslen : pts.length = chunks.length := by
          rw [← hpts, hform, hmlen, hidslen]
        refine ⟨hptslen, by rw [← hlids, List.length_map, hplen], ?_⟩
        intro k hk
        have hkp : k < payloads.length := by rw [hplen]; exact hk
        have hkids : k < (payloads.map fun c => c.id).length := by
          rw [hidslen]
          exact hk
        have hpoint := hmidx k hkids
        have hpidk : (payloads.map fun c => c.id).getD k "" = (payloads.getD k default).id :=
          getD_map_getD_lt (fun c => c.id) payloads k default "" hkp
        have hmetak : (payloads.map payloadToMetadata).getD k [] =
            payloadToMetadata (payloads.getD k default) :=
          getD_map_getD_lt payloadToMetadata payloads k default [] hkp
        have hexp : (payloads.getD k default).id =
            expected_logical_id (chunks.getD k default) document k := by
          have hn := hpidx k hk
          have := normalize_id_eq_expected (chunks.getD k default) document (0 + k)
            (payloads.getD k default) hn
          rw [Nat.zero_add] at this
          exact this
        constructor
        · rw [← hpts, hform, hpoint]
          show dictGet (setdefault ((payloads.map payloadToMetadata).getD k [])
            "logical_id" (.s ((payloads.map fun c => c.id).getD k ""))) "logical_id" = _
          rw [dictGet_setdefault, if_pos rfl, hmetak, metadata_no_logical_id, hpidk, hexp]
          rfl
        · rw [← hlids, hpidk, hexp]

/- Concrete data for the C2 witness: a chunk with database id 7 and a
   chunk without an id attribute. -/
def c2WitnessDoc : DocInfo :=
  { id := 1, owner_id := 1, name := "doc", original_filename := "doc.pdf",
    content_type := "application/pdf", created_at_ts := none }

def c2WitnessChunks : List ChunkRec :=
  [{ id := some (PValue.i 7), content := some "hello", chunk_index := some 0 },
   { id := none, content := some "world", chunk_index := some 1 }]

/-- C2 witness: the amended theorem applied to the concrete run of the
default index runner over c2WitnessChunks, whose first chunk carries a
truthy database id and whose second does not. -/
theorem C2_logical_id_amended_witness :
    ∃ pts lids,
      _default_index_runner none (fun _ => [1, 0]) (fun n => toString n)
        c2WitnessChunks c2WitnessDoc = .ok (pts, lids)
      ∧ pts.length = c2WitnessChunks.length
      ∧ ∀ k, k < c2WitnessChunks.length →
          dictGet (pts.getD k default).payload "logical_id" =
            some (.s (expected_logical_id (c2WitnessChunks.getD k default) c2WitnessDoc k)) := by
  cases hrun : _default_index_runner none (fun _ => [1, 0]) (fun n => toString n)
      c2WitnessChunks c2WitnessDoc with
  | error e =>
    have hok2 : (_default_index_runner none (fun _ => [1, 0]) (fun n => toString n)
        c2WitnessChunks c2WitnessDoc).isOk = true := rfl
    rw [hrun] at hok2
    exact Bool.noConfusion hok2
  | ok pr =>
    obtain ⟨pts, lids⟩ := pr
    refine ⟨pts, lids, rfl, ?_, ?_⟩
    · exact (C2_logical_id_amended none (fun _ => [1, 0]) (fun n => toString n)
        c2WitnessChunks c2WitnessDoc pts lids hrun).1
    · exact fun k hk => ((C2_logical_id_amended none (fun _ => [1, 0]) (fun n => toString n)
        c2WitnessChunks c2WitnessDoc pts lids hrun).2.2 k hk).1

/- ================= app/services/text_service.py ======================= -/

/- Python's \s over the text alphabet (after the \r replacement no \r
   remains, but the class is kept complete). -/
def isPyWS (c : Char) : Bool :=
  c = ' ' ∨ c = '\t' ∨ c = '\n' ∨ c = '\r' ∨ c = '\x0b' ∨ c = '\x0c'

/- re.sub(r"\n\s*\n+", "\n\n", text): at each '\n', the greedy
   whitespace run after it is inspected; when it contains another '\n'
   the match extends through the LAST '\n' of the run (backtracking of
   \s* so that \n+ succeeds) and is replaced by exactly "\n\n";
   scanning resumes after the match.  Fuel-based recursion: each step
   consumes at least one character, so length + 1 fuel suffices. -/
def collapseNewlinesAux : Nat → List Char → List Char
  | 0, l => l
  | _ + 1, [] => []
  | fuel + 1, c :: rest =>
    if c = '\n' then
      let ws := rest.takeWhile isPyWS
      let tl := rest.dropWhile isPyWS
      if ws.contains '\n' then
        let after := (ws.reverse.takeWhile fun d => d ≠ '\n').reverse
        '\n' :: '\n' :: collapseNewlinesAux fuel (after ++ tl)
      else c :: collapseNewlinesAux fuel rest
    else c :: collapseNewlinesAux fuel rest

def collapseNewlines (l : List Char) : List Char :=
  collapseNewlinesAux (l.length + 1) l

/- re.sub(r"[ \t]+", " ", text). -/
def collapseSpacesAux : Nat → List Char → List Char
  | 0, l => l
  | _ + 1, [] => []
  | fuel + 1, c :: rest =>
    if c = ' ' ∨ c = '\t' then
      ' ' :: collapseSpacesAux fuel (rest.dropWhile fun d => d = ' ' ∨ d = '\t')
    else c :: collapseSpacesAux fuel rest

def collapseSpaces (l : List Char) : List Char :=
  collapseSpacesAux (l.length + 1) l

/- str.strip(). -/
def pyStrip (l : List Char) : List Char :=
  ((l.dropWhile isPyWS).reverse.dropWhile isPyWS).reverse

/- clean_text: empty in, empty out; otherwise replace \r with \n,
   collapse blank-line runs, collapse space/tab runs, strip. -/
def cleanTextChars (raw : List Char) : List Char :=
  if raw = [] then []
  else pyStrip (collapseSpaces (collapseNewlines
    (raw.map fun c => if c = '\r' then '\n' else c)))

def clean_text (raw : String) : String :=
  String.mk (cleanTextChars raw.data)

/- Modelled from the spec: the recursive character splitter used by
   split_text_into_chunks / chunk_text is
   langchain_text_splitters.RecursiveCharacterTextSplitter, which is a
   third-party library and not part of this repository's sources.  The
   model follows the specification text: splitting is recursive on the
   priority list of separators ["\n\n", "\n", ". ", " ", ""]; a piece is
   split by the first separator and oversize pieces recurse into the
   next separator (the "" separator splits into single characters);
   separators are kept with the preceding piece so that the pieces
   partition the text.  findSub returns the first index at which the
   separator occurs. -/
def findSub (sep : List Char) : List Char → Option Nat
  | [] => if sep.isEmpty then some 0 else none
  | c :: rest =>
    if sep.isPrefixOf (c :: rest) then some 0
    else (findSub sep rest).map fun i => i + 1

def splitKeepAux (sep : List Char) : Nat → List Char → List (List Char)
  | 0, text => [text]
  | fuel + 1, text =>
    match findSub sep text with
    | none => [text]
    | some i =>
      (text.take (i + sep.length)) :: splitKeepAux sep fuel (text.drop (i + sep.length))

def splitKeep (sep : List Char) (text : List Char) : List (List Char) :=
  if sep.isEmpty then text.map fun c => [c]
  else splitKeepAux sep text.length text

def SEPARATORS : List (List Char) :=
  [['\n', '\n'], ['\n'], ['.', ' '], [' '], []]

/- Modelled from the spec: "try the highest-priority separator ...;
   recurse into oversize pieces with the next separator". -/
def leafPieces (size : Nat) : List (List Char) → List Char → List (List Char)
  | [], text => [text]
  | sep :: restSeps, text =>
    if text.length ≤ size then [text]
    else ((splitKeep sep text).map fun piece =>
      if piece.length ≤ size then [piece] else leafPieces size restSeps piece).flatten

/- The last n characters of a window. -/
def lastN (n : Nat) (l : List Char) : List Char :=
  l.drop (l.length - n)

/- Modelled from the spec: "greedily concatenate consecutive pieces
   while the running length stays ≤ chunk_size; then build the next
   window by rewinding the last chunk_overlap characters of the prior
   window".  A piece that does not fit closes the current window; the
   next window starts with the rewound overlap characters followed by
   that piece. -/
def mergeLoop (size overlap : Nat) : List (List Char) → List Char → List (List Char)
  | [], cur => [cur]
  | p :: ps, cur =>
    if cur.length + p.length ≤ size then mergeLoop size overlap ps (cur ++ p)
    else cur :: mergeLoop size overlap ps (lastN overlap cur ++ p)

def splitCleaned (cleaned : List Char) (size overlap : Nat) : List (List Char) :=
  if cleaned = [] then []
  else mergeLoop size overlap (leafPieces size SEPARATORS cleaned) []

/- split_text_into_chunks = clean_text + splitter (chunk_text returns
   the same chunk contents, adding find-based offsets that the claims do
   not concern). -/
def split_text_into_chunks (text : String) (chunk_size chunk_overlap : Nat) :
    List String :=
  (splitCleaned (cleanTextChars text.data) chunk_size chunk_overlap).map fun cs =>
    String.mk cs

/- The claim's reassembly: concatenate the chunks with each chunk's
   (except the first's) leading chunk_overlap characters removed. -/
def concatMinusExactOverlap (overlap : Nat) : List (List Char) → List Char
  | [] => []
  | c :: cs => c ++ (cs.map fun d => d.drop overlap).flatten

def drop_overlaps_exact (chunks : List String) (overlap : Nat) : String :=
  String.mk (concatMinusExactOverlap overlap (chunks.map String.data))

/- The amended reassembly: each later chunk drops its shared prefix with
   the previous chunk, whose length is min(chunk_overlap, previous chunk
   length). -/
def dropPrevOverlap (overlap : Nat) : List Char → List (List Char) → List Char
  | _, [] => []
  | prev, c :: cs => c.drop (min overlap prev.length) ++ dropPrevOverlap overlap c cs

def concatMinusOverlap (overlap : Nat) : List (List Char) → List Char
  | [] => []
  | c :: cs => c ++ dropPrevOverlap overlap c cs

def drop_overlaps_min (chunks : List String) (overlap : Nat) : String :=
  String.mk (concatMinusOverlap overlap (chunks.map String.data))

theorem splitKeepAux_flatten (sep : List Char) :
    ∀ (fuel : Nat) (text : List Char), (splitKeepAux sep fuel text).flatten = text := by
  intro fuel
  induction fuel with
  | zero =>
    intro text
    simp [splitKeepAux]
  | succ fuel ih =>
    intro text
    unfold splitKeepAux
    cases findSub sep text with
    | none => simp
    | some i =>
      simp only [List.flatten_cons, ih]
      exact List.take_append_drop _ _

theorem splitKeep_flatten (sep : List Char) (text : List Char) :
    (splitKeep sep text).flatten = text := by
  unfold splitKeep
  by_cases hs : sep.isEmpty
  · rw [if_pos hs]
    induction text with
    | nil => rfl
    | cons c cs ihc =>
      simp only [List.map_cons, List.flatten_cons, List.singleton_append]
      rw [ihc]
  · rw [if_neg hs]
    exact splitKeepAux_flatten sep text.length text

theorem flatten_flatten (L : List (List (List Char))) :
    L.flatten.flatten = (L.map List.flatten).flatten := by
  induction L with
  | nil => rfl
  | cons x xs ih =>
    simp only [List.flatten_cons, List.map_cons, List.flatten_append, ih]

theorem leafPieces_flatten (size : Nat) :
    ∀ (seps : List (List Char)) (text : List Char),
      (leafPieces size seps text).flatten = text := by
  intro seps
  induction seps with
  | nil =>
    intro text
    simp [leafPieces]
  | cons sep restSeps ih =>
    intro text
    unfold leafPieces
    by_cases hle : text.length ≤ size
    · rw [if_pos hle]
      simp
    · rw [if_neg hle]
      rw [flatten_flatten, List.map_map]
      have hcongr : ((splitKeep sep text).map
          (List.flatten ∘ fun piece =>
            if piece.length ≤ size then [piece] else leafPieces size restSeps piece)) =
          (splitKeep sep text).map id := by
        apply List.map_congr_left
        intro piece _
        show (if piece.length ≤ size then [piece]
          else leafPieces size restSeps piece).flatten = piece
        by_cases hp : piece.length ≤ size
        · rw [if_pos hp]
          simp
        · rw [if_neg hp]
          exact ih piece
      rw [hcongr, List.map_id]
      exact splitKeep_flatten sep text

theorem lastN_length (n : Nat) (l : List Char) : (lastN n l).length = min n l.length := by
  unfold lastN
  rw [List.length_drop]
  omega

theorem drop_lastN_append (overlap : Nat) (prev rest : List Char) :
    (lastN overlap prev ++ rest).drop (min overlap prev.length) = rest := by
  rw [← lastN_length overlap prev]
  exact List.drop_left _ _

theorem mergeLoop_dropPrev (size overlap : Nat) :
    ∀ (ps : List (List Char)) (prev rest : List Char),
      dropPrevOverlap overlap prev
        (mergeLoop size overlap ps (lastN overlap prev ++ rest)) =
      rest ++ ps.flatten := by
  intro ps
  induction ps with
  | nil =>
    intro prev rest
    show (lastN overlap prev ++ rest).drop (min overlap prev.length) ++
      dropPrevOverlap overlap (lastN overlap prev ++ rest) [] = rest ++ [].flatten
    rw [drop_lastN_append]
    rfl
  | cons p ps ih =>
    intro prev rest
    rw [mergeLoop]
    by_cases hfit : (lastN overlap prev ++ rest).length + p.length ≤ size
    · rw [if_pos hfit, List.append_assoc, ih prev (rest ++ p)]
      simp [List.flatten_cons]
    · rw [if_neg hfit]
      show (lastN overlap prev ++ rest).drop (min overlap prev.length) ++
        dropPrevOverlap overlap (lastN overlap prev ++ rest)
          (mergeLoop size overlap ps
            (lastN overlap (lastN overlap prev ++ rest) ++ p)) = rest ++ (p :: ps).flatten
      rw [drop_lastN_append, ih (lastN overlap prev ++ rest) p]
      simp [List.flatten_cons]

theorem concatMinusOverlap_eq_dropPrev_nil (overlap : Nat) (W : List (List Char)) :
    concatMinusOverlap overlap W = dropPrevOverlap overlap [] W := by
  cases W with
  | nil => rfl
  | cons w ws =>
    show w ++ dropPrevOverlap overlap w ws =
      w.drop (min overlap ([] : List Char).length) ++ dropPrevOverlap overlap w ws
    simp

theorem splitCleaned_roundtrip (cleaned : List Char) (size overlap : Nat) :
    concatMinusOverlap overlap (splitCleaned cleaned size overlap) = cleaned := by
  unfold splitCleaned
  by_cases hc : cleaned = []
  · rw [if_pos hc, hc]
    rfl
  · rw [if_neg hc]
    rw [concatMinusOverlap_eq_dropPrev_nil]
    have hnil : (lastN overlap ([] : List Char) ++ ([] : List Char)) = ([] : List Char) := by
      simp [lastN]
    have := mergeLoop_dropPrev size overlap (leafPieces size SEPARATORS cleaned) [] []
    rw [hnil] at this
    rw [this]
    simp only [List.nil_append]
    exact leafPieces_flatten size SEPARATORS cleaned

/- A 48-character word, a blank line, then a 180-character word: with
   chunk_size = 200 and chunk_overlap = 100 the splitter produces a
   50-character first window and a 230-character second window whose
   shared prefix is only 50 characters long, so removing a full
   100-character "overlap" from the second window loses 50 characters of
   text. -/
def c6CexText : String :=
  String.mk (List.replicate 48 'a' ++ ['\n', '\n'] ++ List.replicate 180 'b')

set_option maxRecDepth 40000 in
/-- C6 counterexample: with valid chunk_size = 200 and
chunk_overlap = 100, concatenating the chunks of c6CexText with each
chunk's leading 100 characters removed does not reproduce the cleaned
text (a window can be shorter than chunk_overlap, so the rewound overlap
is only min(chunk_overlap, previous window length) characters long). -/
theorem C6_chunk_roundtrip_counterexample :
    (200 ≤ 200 ∧ 200 ≤ 4000 ∧ 100 ≤ 1000 ∧ 100 < 200)
    ∧ drop_overlaps_exact (split_text_into_chunks c6CexText 200 100) 100 ≠
        clean_text c6CexText := by
  refine ⟨by decide, fun h => absurd (congrArg String.length h) ?_⟩
  decide

/-- C6 (amended): for every input text and valid chunk_size and
chunk_overlap, concatenating the chunks with each chunk's leading
overlap removed reproduces exactly the cleaned text, where the overlap
of a chunk with its predecessor is the last min(chunk_overlap,
predecessor length) characters of the predecessor (equal to
chunk_overlap whenever the predecessor is at least chunk_overlap
characters long), and cleaning replaces carriage returns with newlines,
collapses blank-line runs, collapses horizontal whitespace runs, and
trims the ends. -/
theorem C6_chunk_roundtrip_amended (text : String) (chunk_size chunk_overlap : Nat)
    (h1 : 200 ≤ chunk_size) (h2 : chunk_size ≤ 4000)
    (h3 : chunk_overlap ≤ 1000) (h4 : chunk_overlap < chunk_size) :
    drop_overlaps_min (split_text_into_chunks text chunk_size chunk_overlap)
      chunk_overlap = clean_text text := by
  unfold drop_overlaps_min split_text_into_chunks clean_text
  rw [List.map_map]
  have hcomp : (String.data ∘ fun cs => String.mk cs) = id := funext fun cs => rfl
  rw [hcomp, List.map_id, splitCleaned_roundtrip]

/-- C6 witness: the amended round trip at a concrete short text. -/
theorem C6_chunk_roundtrip_amended_witness :
    (200 ≤ 200 ∧ 200 ≤ 4000 ∧ 100 ≤ 1000 ∧ 100 < 200)
    ∧ drop_overlaps_min (split_text_into_chunks "hello  world" 200 100) 100 =
        clean_text "hello  world" :=
  ⟨by decide, C6_chunk_roundtrip_amended "hello  world" 200 100 (by decide) (by decide)
    (by decide) (by decide)⟩
